import Mathlib

/-!
Verification of the residue-pattern gadget (`src/examples/src/residue_pattern.rs`).

The development embeds:
* the pure reference oracle `residue_pattern` over the BN254 scalar field
  (`halo2curves::bn256::Fr`, i.e. `ZMod frP`), where a value is treated as a
  quadratic residue exactly when the field `sqrt` operation would return a root;
* the witness-assignment engine `ResiduePatternChip::assign` / `assign_value`,
  generically over a field together with an abstract `sqrt` oracle (the field
  implementation is an external crate, so `sqrt` is a parameter constrained by
  its documented contract);
* the five gate relations registered by `ResiduePatternConfig::configure`;
* an error-propagating variant of the engine over an abstract row-table
  substrate, used for the error-handling and panic claims.
-/

/-- Binary modular exponentiation on `ℕ`, structurally recursive on a fuel
bound so that the kernel can evaluate it on very large inputs.
`powMod fuel b e m = b ^ e % m` whenever `e < 2 ^ fuel` and `0 < m`. -/
def powMod : ℕ → ℕ → ℕ → ℕ → ℕ
  | 0, _, _, m => 1 % m
  | fuel + 1, b, e, m =>
    if e = 0 then 1 % m
    else
      let h := powMod fuel (b * b % m) (e / 2) m
      if e % 2 = 1 then b * h % m else h

theorem powMod_lt (fuel b e m : ℕ) (hm : 0 < m) : powMod fuel b e m < m := by
  induction fuel generalizing b e with
  | zero => exact Nat.mod_lt _ hm
  | succ fuel ih =>
    simp only [powMod]
    split
    · exact Nat.mod_lt _ hm
    · split
      · exact Nat.mod_lt _ hm
      · exact ih _ _

theorem powMod_cast (m : ℕ) (fuel : ℕ) : ∀ e b : ℕ, e < 2 ^ fuel →
    ((powMod fuel b e m : ℕ) : ZMod m) = (b : ZMod m) ^ e := by
  induction fuel with
  | zero =>
    intro e b he
    interval_cases e
    simp [powMod]
  | succ fuel ih =>
    intro e b he
    by_cases h0 : e = 0
    · subst h0; simp [powMod]
    · have hrec := ih (e / 2) (b * b % m)
        (by
          have : e / 2 < 2 ^ fuel := by
            have h2 : e < 2 ^ fuel * 2 := by
              simpa [pow_succ] using he
            omega
          exact this)
      have hbb : ((b * b % m : ℕ) : ZMod m) = (b : ZMod m) * (b : ZMod m) := by
        push_cast [ZMod.natCast_mod]
        ring
      rw [hbb] at hrec
      have hsplit : 2 * (e / 2) + e % 2 = e := Nat.div_add_mod e 2
      by_cases hpar : e % 2 = 1
      · have : powMod (fuel + 1) b e m = b * powMod fuel (b * b % m) (e / 2) m % m := by
          simp [powMod, h0, hpar]
        rw [this]
        push_cast [ZMod.natCast_mod]
        rw [hrec, ← sq, ← pow_mul]
        calc (b : ZMod m) * (b : ZMod m) ^ (2 * (e / 2))
            = (b : ZMod m) ^ (2 * (e / 2) + 1) := by ring
          _ = (b : ZMod m) ^ e := by congr 1; omega
      · have hpar0 : e % 2 = 0 := by omega
        have : powMod (fuel + 1) b e m = powMod fuel (b * b % m) (e / 2) m := by
          simp [powMod, h0, hpar]
        rw [this, hrec, ← sq, ← pow_mul]
        congr 1
        omega

/-- Transfer equalities `x ^ e = 1` in `ZMod m` to kernel-computable facts
about `powMod`. -/
theorem zmodPow_eq_one_iff (m b e fuel : ℕ) (hm : 1 < m) (he : e < 2 ^ fuel) :
    ((b : ZMod m) ^ e = 1) ↔ powMod fuel b e m = 1 := by
  have hm0 : 0 < m := by omega
  have : ((powMod fuel b e m : ℕ) : ZMod m) = (b : ZMod m) ^ e := powMod_cast m fuel e b he
  rw [← this]
  constructor
  · intro h
    have hval := congrArg (ZMod.val) h
    have : NeZero m := ⟨by omega⟩
    rw [ZMod.val_natCast, Nat.mod_eq_of_lt (powMod_lt fuel b e m hm0)] at hval
    have hfact : Fact (1 < m) := ⟨hm⟩
    rwa [ZMod.val_one m] at hval
  · intro h
    rw [h]
    exact Nat.cast_one

set_option maxRecDepth 8000

theorem lucas_pow_ne_one (q g e fuel : ℕ) (hq : 1 < q) (he : e < 2 ^ fuel)
    (hne : powMod fuel g e q ≠ 1) : ((g : ℕ) : ZMod q) ^ e ≠ 1 :=
  fun h => hne ((zmodPow_eq_one_iff q g e fuel hq he).mp h)

theorem lucas_pow_one (q g e fuel : ℕ) (hq : 1 < q) (he : e < 2 ^ fuel)
    (hone : powMod fuel g e q = 1) : ((g : ℕ) : ZMod q) ^ e = 1 := by
  rw [zmodPow_eq_one_iff q g e fuel hq he]; exact hone

theorem dvd_prime_pow_eq {r p k : ℕ} (hr : r.Prime) (hp : p.Prime) (h : r ∣ p ^ k) : r = p :=
  (Nat.prime_dvd_prime_iff_eq hr hp).mp (hr.dvd_of_dvd_pow h)

theorem dvd_prime_eq {r p : ℕ} (hr : r.Prime) (hp : p.Prime) (h : r ∣ p) : r = p :=
  (Nat.prime_dvd_prime_iff_eq hr hp).mp h

theorem prime_12048837557 : Nat.Prime 12048837557 := by
  refine lucas_primality 12048837557 ((2 : ℕ) : ZMod 12048837557) ?_ ?_
  · exact lucas_pow_one _ _ _ 64 (by norm_num) (by norm_num) (by decide)
  · intro r hr hdvd
    have hfact : (12048837557 : ℕ) - 1 = 2 ^ 2 * 7 ^ 2 * 661 * 93001 := by norm_num
    rw [hfact] at hdvd
    rcases (Nat.Prime.dvd_mul hr).mp hdvd with h | h
    rotate_left
    · have hr93001 : r = 93001 := dvd_prime_eq hr (by norm_num) h
      subst hr93001
      have hdiv : ((12048837557 : ℕ) - 1) / 93001 = 129556 := by norm_num
      rw [hdiv]
      exact lucas_pow_ne_one _ _ _ 64 (by norm_num) (by norm_num) (by decide)
    rcases (Nat.Prime.dvd_mul hr).mp h with h | h
    rotate_left
    · have hre : r = 661 := dvd_prime_eq hr (by norm_num) h
      subst hre
      have hdiv : ((12048837557 : ℕ) - 1) / 661 = 18228196 := by norm_num
      rw [hdiv]
      exact lucas_pow_ne_one _ _ _ 64 (by norm_num) (by norm_num) (by decide)
    rcases (Nat.Prime.dvd_mul hr).mp h with h | h
    · have hre : r = 2 := dvd_prime_pow_eq hr (by norm_num) h
      subst hre
      have hdiv : ((12048837557 : ℕ) - 1) / 2 = 6024418778 := by norm_num
      rw [hdiv]
      exact lucas_pow_ne_one _ _ _ 64 (by norm_num) (by norm_num) (by decide)
    · have hre : r = 7 := dvd_prime_pow_eq hr (by norm_num) h
      subst hre
      have hdiv : ((12048837557 : ℕ) - 1) / 7 = 1721262508 := by norm_num
      rw [hdiv]
      exact lucas_pow_ne_one _ _ _ 64 (by norm_num) (by norm_num) (by decide)
theorem prime_5156902474397 : Nat.Prime 5156902474397 := by
  refine lucas_primality 5156902474397 ((2 : ℕ) : ZMod 5156902474397) ?_ ?_
  · exact lucas_pow_one _ _ _ 64 (by norm_num) (by norm_num) (by decide)
  · intro r hr hdvd
    have hfact : (5156902474397 : ℕ) - 1 = 2 ^ 2 * 107 * 12048837557 := by norm_num
    rw [hfact] at hdvd
    rcases (Nat.Prime.dvd_mul hr).mp hdvd with h | h
    rotate_left
    · have hre : r = 12048837557 := dvd_prime_eq hr prime_12048837557 h
      subst hre
      have hdiv : ((5156902474397 : ℕ) - 1) / 12048837557 = 428 := by norm_num
      rw [hdiv]
      exact lucas_pow_ne_one _ _ _ 64 (by norm_num) (by norm_num) (by decide)
    rcases (Nat.Prime.dvd_mul hr).mp h with h | h
    · have hre : r = 2 := dvd_prime_pow_eq hr (by norm_num) h
      subst hre
      have hdiv : ((5156902474397 : ℕ) - 1) / 2 = 2578451237198 := by norm_num
      rw [hdiv]
      exact lucas_pow_ne_one _ _ _ 64 (by norm_num) (by norm_num) (by decide)
    · have hre : r = 107 := dvd_prime_eq hr (by norm_num) h
      subst hre
      have hdiv : ((5156902474397 : ℕ) - 1) / 107 = 48195350228 := by norm_num
      rw [hdiv]
      exact lucas_pow_ne_one _ _ _ 64 (by norm_num) (by norm_num) (by decide)

theorem prime_1670836401704629 : Nat.Prime 1670836401704629 := by
  refine lucas_primality 1670836401704629 ((2 : ℕ) : ZMod 1670836401704629) ?_ ?_
  · exact lucas_pow_one _ _ _ 64 (by norm_num) (by norm_num) (by decide)
  · intro r hr hdvd
    have hfact : (1670836401704629 : ℕ) - 1 = 2 ^ 2 * 3 ^ 4 * 5156902474397 := by norm_num
    rw [hfact] at hdvd
    rcases (Nat.Prime.dvd_mul hr).mp hdvd with h | h
    rotate_left
    · have hre : r = 5156902474397 := dvd_prime_eq hr prime_5156902474397 h
      subst hre
      have hdiv : ((1670836401704629 : ℕ) - 1) / 5156902474397 = 324 := by norm_num
      rw [hdiv]
      exact lucas_pow_ne_one _ _ _ 64 (by norm_num) (by norm_num) (by decide)
    rcases (Nat.Prime.dvd_mul hr).mp h with h | h
    · have hre : r = 2 := dvd_prime_pow_eq hr (by norm_num) h
      subst hre
      have hdiv : ((1670836401704629 : ℕ) - 1) / 2 = 835418200852314 := by norm_num
      rw [hdiv]
      exact lucas_pow_ne_one _ _ _ 64 (by norm_num) (by norm_num) (by decide)
    · have hre : r = 3 := dvd_prime_pow_eq hr (by norm_num) h
      subst hre
      have hdiv : ((1670836401704629 : ℕ) - 1) / 3 = 556945467234876 := by norm_num
      rw [hdiv]
      exact lucas_pow_ne_one _ _ _ 64 (by norm_num) (by norm_num) (by decide)

theorem prime_639533339 : Nat.Prime 639533339 := by
  refine lucas_primality 639533339 ((2 : ℕ) : ZMod 639533339) ?_ ?_
  · exact lucas_pow_one _ _ _ 64 (by norm_num) (by norm_num) (by decide)
  · intro r hr hdvd
    have hfact : (639533339 : ℕ) - 1 = 2 * 229 * 1637 * 853 := by norm_num
    rw [hfact] at hdvd
    rcases (Nat.Prime.dvd_mul hr).mp hdvd with h | h
    rotate_left
    · have hre : r = 853 := dvd_prime_eq hr (by norm_num) h
      subst hre
      have hdiv : ((639533339 : ℕ) - 1) / 853 = 749746 := by norm_num
      rw [hdiv]
      exact lucas_pow_ne_one _ _ _ 64 (by norm_num) (by norm_num) (by decide)
    rcases (Nat.Prime.dvd_mul hr).mp h with h | h
    rotate_left
    · have hre : r = 1637 := dvd_prime_eq hr (by norm_num) h
      subst hre
      have hdiv : ((639533339 : ℕ) - 1) / 1637 = 390674 := by norm_num
      rw [hdiv]
      exact lucas_pow_ne_one _ _ _ 64 (by norm_num) (by norm_num) (by decide)
    rcases (Nat.Prime.dvd_mul hr).mp h with h | h
    · have hre : r = 2 := dvd_prime_eq hr (by norm_num) h
      subst hre
      have hdiv : ((639533339 : ℕ) - 1) / 2 = 319766669 := by norm_num
      rw [hdiv]
      exact lucas_pow_ne_one _ _ _ 64 (by norm_num) (by norm_num) (by decide)
    · have hre : r = 229 := dvd_prime_eq hr (by norm_num) h
      subst hre
      have hdiv : ((639533339 : ℕ) - 1) / 229 = 2792722 := by norm_num
      rw [hdiv]
      exact lucas_pow_ne_one _ _ _ 64 (by norm_num) (by norm_num) (by decide)

theorem prime_65865678001877903 : Nat.Prime 65865678001877903 := by
  refine lucas_primality 65865678001877903 ((5 : ℕ) : ZMod 65865678001877903) ?_ ?_
  · exact lucas_pow_one _ _ _ 64 (by norm_num) (by norm_num) (by decide)
  · intro r hr hdvd
    have hfact : (65865678001877903 : ℕ) - 1 = 2 * 83 * 379 * 1637 * 639533339 := by norm_num
    rw [hfact] at hdvd
    rcases (Nat.Prime.dvd_mul hr).mp hdvd with h | h
    rotate_left
    · have hre : r = 639533339 := dvd_prime_eq hr prime_639533339 h
      subst hre
      have hdiv : ((65865678001877903 : ℕ) - 1) / 639533339 = 102990218 := by norm_num
      rw [hdiv]
      exact lucas_pow_ne_one _ _ _ 64 (by norm_num) (by norm_num) (by decide)
    rcases (Nat.Prime.dvd_mul hr).mp h with h | h
    rotate_left
    · have hre : r = 1637 := dvd_prime_eq hr (by norm_num) h
      subst hre
      have hdiv : ((65865678001877903 : ℕ) - 1) / 1637 = 40235600489846 := by norm_num
      rw [hdiv]
      exact lucas_pow_ne_one _ _ _ 64 (by norm_num) (by norm_num) (by decide)
    rcases (Nat.Prime.dvd_mul hr).mp h with h | h
    rotate_left
    · have hre : r = 379 := dvd_prime_eq hr (by norm_num) h
      subst hre
      have hdiv : ((65865678001877903 : ℕ) - 1) / 379 = 173788068606538 := by norm_num
      rw [hdiv]
      exact lucas_pow_ne_one _ _ _ 64 (by norm_num) (by norm_num) (by decide)
    rcases (Nat.Prime.dvd_mul hr).mp h with h | h
    · have hre : r = 2 := dvd_prime_eq hr (by norm_num) h
      subst hre
      have hdiv : ((65865678001877903 : ℕ) - 1) / 2 = 32932839000938951 := by norm_num
      rw [hdiv]
      exact lucas_pow_ne_one _ _ _ 64 (by norm_num) (by norm_num) (by decide)
    · have hre : r = 83 := dvd_prime_eq hr (by norm_num) h
      subst hre
      have hdiv : ((65865678001877903 : ℕ) - 1) / 83 = 793562385564794 := by norm_num
      rw [hdiv]
      exact lucas_pow_ne_one _ _ _ 64 (by norm_num) (by norm_num) (by decide)

theorem prime_1593227 : Nat.Prime 1593227 := by
  refine lucas_primality 1593227 ((2 : ℕ) : ZMod 1593227) ?_ ?_
  · exact lucas_pow_one _ _ _ 64 (by norm_num) (by norm_num) (by decide)
  · intro r hr hdvd
    have hfact : (1593227 : ℕ) - 1 = 2 * 19 * 41927 := by norm_num
    rw [hfact] at hdvd
    rcases (Nat.Prime.dvd_mul hr).mp hdvd with h | h
    rotate_left
    · have hre : r = 41927 := dvd_prime_eq hr (by norm_num) h
      subst hre
      have hdiv : ((1593227 : ℕ) - 1) / 41927 = 38 := by norm_num
      rw [hdiv]
      exact lucas_pow_ne_one _ _ _ 64 (by norm_num) (by norm_num) (by decide)
    rcases (Nat.Prime.dvd_mul hr).mp h with h | h
    · have hre : r = 2 := dvd_prime_eq hr (by norm_num) h
      subst hre
      have hdiv : ((1593227 : ℕ) - 1) / 2 = 796613 := by norm_num
      rw [hdiv]
      exact lucas_pow_ne_one _ _ _ 64 (by norm_num) (by norm_num) (by decide)
    · have hre : r = 19 := dvd_prime_eq hr (by norm_num) h
      subst hre
      have hdiv : ((1593227 : ℕ) - 1) / 19 = 83854 := by norm_num
      rw [hdiv]
      exact lucas_pow_ne_one _ _ _ 64 (by norm_num) (by norm_num) (by decide)

theorem prime_13818364434197438864469338081 : Nat.Prime 13818364434197438864469338081 := by
  refine lucas_primality 13818364434197438864469338081 ((3 : ℕ) : ZMod 13818364434197438864469338081) ?_ ?_
  · exact lucas_pow_one _ _ _ 128 (by norm_num) (by norm_num) (by decide)
  · intro r hr hdvd
    have hfact : (13818364434197438864469338081 : ℕ) - 1 = 2 ^ 5 * 5 * 823 * 1593227 * 65865678001877903 := by norm_num
    rw [hfact] at hdvd
    rcases (Nat.Prime.dvd_mul hr).mp hdvd with h | h
    rotate_left
    · have hre : r = 65865678001877903 := dvd_prime_eq hr prime_65865678001877903 h
      subst hre
      have hdiv : ((13818364434197438864469338081 : ℕ) - 1) / 65865678001877903 = 209796131360 := by norm_num
      rw [hdiv]
      exact lucas_pow_ne_one _ _ _ 128 (by norm_num) (by norm_num) (by decide)
    rcases (Nat.Prime.dvd_mul hr).mp h with h | h
    rotate_left
    · have hre : r = 1593227 := dvd_prime_eq hr prime_1593227 h
      subst hre
      have hdiv : ((13818364434197438864469338081 : ℕ) - 1) / 1593227 = 8673192479287282267040 := by norm_num
      rw [hdiv]
      exact lucas_pow_ne_one _ _ _ 128 (by norm_num) (by norm_num) (by decide)
    rcases (Nat.Prime.dvd_mul hr).mp h with h | h
    rotate_left
    · have hre : r = 823 := dvd_prime_eq hr (by norm_num) h
      subst hre
      have hdiv : ((13818364434197438864469338081 : ℕ) - 1) / 823 = 16790236250543668122076960 := by norm_num
      rw [hdiv]
      exact lucas_pow_ne_one _ _ _ 128 (by norm_num) (by norm_num) (by decide)
    rcases (Nat.Prime.dvd_mul hr).mp h with h | h
    · have hre : r = 2 := dvd_prime_pow_eq hr (by norm_num) h
      subst hre
      have hdiv : ((13818364434197438864469338081 : ℕ) - 1) / 2 = 6909182217098719432234669040 := by norm_num
      rw [hdiv]
      exact lucas_pow_ne_one _ _ _ 128 (by norm_num) (by norm_num) (by decide)
    · have hre : r = 5 := dvd_prime_eq hr (by norm_num) h
      subst hre
      have hdiv : ((13818364434197438864469338081 : ℕ) - 1) / 5 = 2763672886839487772893867616 := by norm_num
      rw [hdiv]
      exact lucas_pow_ne_one _ _ _ 128 (by norm_num) (by norm_num) (by decide)

theorem prime_405928799 : Nat.Prime 405928799 := by
  refine lucas_primality 405928799 ((22 : ℕ) : ZMod 405928799) ?_ ?_
  · exact lucas_pow_one _ _ _ 64 (by norm_num) (by norm_num) (by decide)
  · intro r hr hdvd
    have hfact : (405928799 : ℕ) - 1 = 2 * 11 * 3691 * 4999 := by norm_num
    rw [hfact] at hdvd
    rcases (Nat.Prime.dvd_mul hr).mp hdvd with h | h
    rotate_left
    · have hre : r = 4999 := dvd_prime_eq hr (by norm_num) h
      subst hre
      have hdiv : ((405928799 : ℕ) - 1) / 4999 = 81202 := by norm_num
      rw [hdiv]
      exact lucas_pow_ne_one _ _ _ 64 (by norm_num) (by norm_num) (by decide)
    rcases (Nat.Prime.dvd_mul hr).mp h with h | h
    rotate_left
    · have hre : r = 3691 := dvd_prime_eq hr (by norm_num) h
      subst hre
      have hdiv : ((405928799 : ℕ) - 1) / 3691 = 109978 := by norm_num
      rw [hdiv]
      exact lucas_pow_ne_one _ _ _ 64 (by norm_num) (by norm_num) (by decide)
    rcases (Nat.Prime.dvd_mul hr).mp h with h | h
    · have hre : r = 2 := dvd_prime_eq hr (by norm_num) h
      subst hre
      have hdiv : ((405928799 : ℕ) - 1) / 2 = 202964399 := by norm_num
      rw [hdiv]
      exact lucas_pow_ne_one _ _ _ 64 (by norm_num) (by norm_num) (by decide)
    · have hre : r = 11 := dvd_prime_eq hr (by norm_num) h
      subst hre
      have hdiv : ((405928799 : ℕ) - 1) / 11 = 36902618 := by norm_num
      rw [hdiv]
      exact lucas_pow_ne_one _ _ _ 64 (by norm_num) (by norm_num) (by decide)

theorem prime_21888242871839275222246405745257275088548364400416034343698204186575808495617 : Nat.Prime 21888242871839275222246405745257275088548364400416034343698204186575808495617 := by
  refine lucas_primality 21888242871839275222246405745257275088548364400416034343698204186575808495617 ((5 : ℕ) : ZMod 21888242871839275222246405745257275088548364400416034343698204186575808495617) ?_ ?_
  · exact lucas_pow_one _ _ _ 256 (by norm_num) (by norm_num) (by decide)
  · intro r hr hdvd
    have hfact : (21888242871839275222246405745257275088548364400416034343698204186575808495617 : ℕ) - 1 = 2 ^ 28 * 3 ^ 2 * 13 * 29 * 983 * 11003 * 237073 * 405928799 * 1670836401704629 * 13818364434197438864469338081 := by norm_num
    rw [hfact] at hdvd
    rcases (Nat.Prime.dvd_mul hr).mp hdvd with h | h
    rotate_left
    · have hre : r = 13818364434197438864469338081 := dvd_prime_eq hr prime_13818364434197438864469338081 h
      subst hre
      have hdiv : ((21888242871839275222246405745257275088548364400416034343698204186575808495617 : ℕ) - 1) / 13818364434197438864469338081 = 1583996642733683218748855262055434666238317428736 := by norm_num
      rw [hdiv]
      exact lucas_pow_ne_one _ _ _ 256 (by norm_num) (by norm_num) (by decide)
    rcases (Nat.Prime.dvd_mul hr).mp h with h | h
    rotate_left
    · have hre : r = 1670836401704629 := dvd_prime_eq hr prime_1670836401704629 h
      subst hre
      have hdiv : ((21888242871839275222246405745257275088548364400416034343698204186575808495617 : ℕ) - 1) / 1670836401704629 = 13100171177446423556613374118717413492986637444144570673659904 := by norm_num
      rw [hdiv]
      exact lucas_pow_ne_one _ _ _ 256 (by norm_num) (by norm_num) (by decide)
    rcases (Nat.Prime.dvd_mul hr).mp h with h | h
    rotate_left
    · have hre : r = 405928799 := dvd_prime_eq hr prime_405928799 h
      subst hre
      have hdiv : ((21888242871839275222246405745257275088548364400416034343698204186575808495617 : ℕ) - 1) / 405928799 = 53921384552563552462426805409431605981098090062873401459989056323584 := by norm_num
      rw [hdiv]
      exact lucas_pow_ne_one _ _ _ 256 (by norm_num) (by norm_num) (by decide)
    rcases (Nat.Prime.dvd_mul hr).mp h with h | h
    rotate_left
    · have hre : r = 237073 := dvd_prime_eq hr (by norm_num) h
      subst hre
      have hdiv : ((21888242871839275222246405745257275088548364400416034343698204186575808495617 : ℕ) - 1) / 237073 = 92327016875980289709272695521030547926370208334209439049146061283131392 := by norm_num
      rw [hdiv]
      exact lucas_pow_ne_one _ _ _ 256 (by norm_num) (by norm_num) (by decide)
    rcases (Nat.Prime.dvd_mul hr).mp h with h | h
    rotate_left
    · have hre : r = 11003 := dvd_prime_eq hr (by norm_num) h
      subst hre
      have hdiv : ((21888242871839275222246405745257275088548364400416034343698204186575808495617 : ℕ) - 1) / 11003 = 1989297725333025104266691424634851866631679033028813445760083994053967872 := by norm_num
      rw [hdiv]
      exact lucas_pow_ne_one _ _ _ 256 (by norm_num) (by norm_num) (by decide)
    rcases (Nat.Prime.dvd_mul hr).mp h with h | h
    rotate_left
    · have hre : r = 983 := dvd_prime_eq hr (by norm_num) h
      subst hre
      have hdiv : ((21888242871839275222246405745257275088548364400416034343698204186575808495617 : ℕ) - 1) / 983 = 22266778099531307448877320188461114027007491760341845720954429487869591552 := by norm_num
      rw [hdiv]
      exact lucas_pow_ne_one _ _ _ 256 (by norm_num) (by norm_num) (by decide)
    rcases (Nat.Prime.dvd_mul hr).mp h with h | h
    rotate_left
    · have hre : r = 29 := dvd_prime_eq hr (by norm_num) h
      subst hre
      have hdiv : ((21888242871839275222246405745257275088548364400416034343698204186575808495617 : ℕ) - 1) / 29 = 754766995580664662836082956733009485812012565531587391162007040916407189504 := by norm_num
      rw [hdiv]
      exact lucas_pow_ne_one _ _ _ 256 (by norm_num) (by norm_num) (by decide)
    rcases (Nat.Prime.dvd_mul hr).mp h with h | h
    rotate_left
    · have hre : r = 13 := dvd_prime_eq hr (by norm_num) h
      subst hre
      have hdiv : ((21888242871839275222246405745257275088548364400416034343698204186575808495617 : ℕ) - 1) / 13 = 1683710990141482709403569672712098083734489569262771872592169552813523730432 := by norm_num
      rw [hdiv]
      exact lucas_pow_ne_one _ _ _ 256 (by norm_num) (by norm_num) (by decide)
    rcases (Nat.Prime.dvd_mul hr).mp h with h | h
    · have hre : r = 2 := dvd_prime_pow_eq hr (by norm_num) h
      subst hre
      have hdiv : ((21888242871839275222246405745257275088548364400416034343698204186575808495617 : ℕ) - 1) / 2 = 10944121435919637611123202872628637544274182200208017171849102093287904247808 := by norm_num
      rw [hdiv]
      exact lucas_pow_ne_one _ _ _ 256 (by norm_num) (by norm_num) (by decide)
    · have hre : r = 3 := dvd_prime_pow_eq hr (by norm_num) h
      subst hre
      have hdiv : ((21888242871839275222246405745257275088548364400416034343698204186575808495617 : ℕ) - 1) / 3 = 7296080957279758407415468581752425029516121466805344781232734728858602831872 := by norm_num
      rw [hdiv]
      exact lucas_pow_ne_one _ _ _ 256 (by norm_num) (by norm_num) (by decide)


/-- The modulus of the BN254 scalar field (`halo2curves::bn256::Fr`). -/
def frP : ℕ := 21888242871839275222246405745257275088548364400416034343698204186575808495617

/-- The BN254 scalar field `Fr`, the concrete field the reference oracle
`residue_pattern` is written over in the source. -/
abbrev Fr : Type := ZMod frP

theorem frP_prime : Nat.Prime frP :=
  prime_21888242871839275222246405745257275088548364400416034343698204186575808495617

instance : Fact (Nat.Prime frP) := ⟨frP_prime⟩

/-- Kernel-computable quadratic-residuosity test on `Fr` (Euler's criterion). -/
def frSquareBit (x : Fr) : Bool := x.val = 0 || powMod 256 x.val (frP / 2) frP = 1

theorem frSquareBit_iff (x : Fr) : frSquareBit x = true ↔ IsSquare x := by
  rw [frSquareBit]
  by_cases h0 : x = 0
  · subst h0
    have : IsSquare (0 : Fr) := ⟨0, by ring⟩
    simp [this]
  · have hval : x.val ≠ 0 := fun h => h0 ((ZMod.val_eq_zero x).mp h)
    have hlt : 1 < frP := by rw [frP]; norm_num
    have hcast : ((x.val : ℕ) : ZMod frP) = x := ZMod.natCast_rightInverse x
    have heuler := ZMod.euler_criterion frP (a := x) h0
    rw [Bool.or_eq_true, decide_eq_true_eq, decide_eq_true_eq]
    constructor
    · rintro (h | h)
      · exact absurd h hval
      · rw [heuler, ← hcast]
        exact lucas_pow_one frP x.val (frP / 2) 256 hlt
          (by rw [frP]; norm_num) h
    · intro hsq
      right
      have := heuler.mp hsq
      rw [← hcast] at this
      exact (zmodPow_eq_one_iff frP x.val (frP / 2) 256 hlt (by rw [frP]; norm_num)).mp this

/-- Decide `IsSquare` on `Fr` through Euler's criterion; high priority so that
it is the instance captured inside `residue_pattern` (the generic `Fintype`
instance would enumerate the whole field). -/
instance (priority := 5000) frIsSquareDecidable : DecidablePred (IsSquare : Fr → Prop) :=
  fun x => decidable_of_iff (frSquareBit x = true) (frSquareBit_iff x)

/-- The pure reference oracle of the source (lines 27-31):
for `i` in `0..64`, the bit records whether `x + i` has a square root in `Fr`
(`sqrt(x + i).is_some()`), and the bits are folded MSB-first as
`pattern = 2 * pattern + bit`. -/
def residue_pattern (x : Fr) : ℕ :=
  (List.range 64).foldl
    (fun pattern i => 2 * pattern + if IsSquare (x + (i : ℕ)) then 1 else 0) 0

theorem isSquare_iff_exists_mul_self {M : Type} [CommMonoid M] (y : M) :
    IsSquare y ↔ ∃ r : M, r * r = y := by
  constructor <;> rintro ⟨r, h⟩ <;> exact ⟨r, h.symm⟩

theorem foldl_double_add (b : ℕ → ℕ) : ∀ (n init : ℕ),
    (List.range n).foldl (fun p i => 2 * p + b i) init
      = init * 2 ^ n + ∑ i ∈ Finset.range n, b i * 2 ^ (n - 1 - i) := by
  intro n
  induction n with
  | zero => intro init; simp
  | succ n ih =>
    intro init
    rw [List.range_succ, List.foldl_append, List.foldl_cons, List.foldl_nil, ih,
      Finset.sum_range_succ]
    have hmul : 2 * ∑ i ∈ Finset.range n, b i * 2 ^ (n - 1 - i)
        = ∑ i ∈ Finset.range n, b i * 2 ^ (n - i) := by
      rw [Finset.mul_sum]
      refine Finset.sum_congr rfl fun i hi => ?_
      have hin : i < n := Finset.mem_range.mp hi
      have hexp : n - 1 - i + 1 = n - i := by omega
      calc 2 * (b i * 2 ^ (n - 1 - i)) = b i * (2 ^ (n - 1 - i) * 2) := by ring
        _ = b i * 2 ^ (n - 1 - i + 1) := by rw [pow_succ]
        _ = b i * 2 ^ (n - i) := by rw [hexp]
    have hgoal : ∀ i, i < n + 1 → n + 1 - 1 - i = n - i := by omega
    have hsame : ∑ i ∈ Finset.range n, b i * 2 ^ (n + 1 - 1 - i)
        = ∑ i ∈ Finset.range n, b i * 2 ^ (n - i) := by
      refine Finset.sum_congr rfl fun i hi => ?_
      rw [hgoal i (Nat.lt_succ_of_lt (Finset.mem_range.mp hi))]
    rw [hsame]
    have : n + 1 - 1 - n = 0 := by omega
    rw [this, pow_zero, mul_one, mul_add, hmul, pow_succ]
    ring

/-- C2: `residue_pattern x` is the MSB-first left fold `pattern = 2*pattern + bit_i`
over `i = 0..63`, where `bit_i` records whether `x + i` has a square root in `Fr`;
equivalently it equals `∑ i, bit_i * 2 ^ (63 - i)`, the bit at index `0` being the
most significant. -/
theorem residue_pattern_fold_msb (x : Fr) :
    residue_pattern x =
      (List.range 64).foldl
        (fun pattern i => 2 * pattern + if ∃ r : Fr, r * r = x + (i : ℕ) then 1 else 0) 0 ∧
    residue_pattern x =
      ∑ i ∈ Finset.range 64, (if ∃ r : Fr, r * r = x + (i : ℕ) then 1 else 0) * 2 ^ (63 - i) := by
  have hbit : ∀ i : ℕ, (if IsSquare (x + (i : ℕ)) then 1 else 0)
      = (if ∃ r : Fr, r * r = x + (i : ℕ) then (1 : ℕ) else 0) := fun i =>
    if_congr (isSquare_iff_exists_mul_self (x + (i : ℕ))) rfl rfl
  have hfun : residue_pattern x =
      (List.range 64).foldl
        (fun pattern i => 2 * pattern + if ∃ r : Fr, r * r = x + (i : ℕ) then 1 else 0) 0 :=
    List.foldl_ext _ _ 0 fun p i _ => by rw [hbit i]
  refine ⟨hfun, ?_⟩
  have hsum := foldl_double_add (fun i => if ∃ r : Fr, r * r = x + (i : ℕ) then 1 else 0) 64 0
  rw [hfun, hsum, zero_mul, zero_add]

set_option maxRecDepth 100000 in
/-- C9: the three concrete test vectors of the spec (and of the source's
`test_vectors` test) for the reference oracle over BN254 `Fr`. -/
theorem residue_pattern_test_vectors :
    residue_pattern 0 = 0b1111101011001100101000001111010010011101000100001110111100110000 ∧
    residue_pattern 1 = 0b1111010110011001010000011110100100111010001000011101111001100001 ∧
    residue_pattern (0x5234234 : Fr)
      = 0b110011011100010010000111110001011101000000000010111000101011110 :=
  ⟨by decide, by decide, by decide⟩

section Chip

variable {F : Type} [Field F] [DecidableEq F]

/-- One row of the witness table: the two selector flags, the fixed `index`
cell and the four advice cells of `ResiduePatternConfig`. The row's position
in the region is its position in the produced list. -/
structure Row (F : Type) where
  alwaysEnabled : Bool
  indexIsNonzero : Bool
  index : F
  value : F
  isResidue : F
  pattern : F
  squareRoot : F
deriving DecidableEq

/-- The chip state: row-block length and the configured nonresidue
(`ResiduePatternChip` fields other than the column handles). -/
structure ResiduePatternChip (F : Type) where
  length : ℕ
  nonresidue : F

/-- The per-row witness choice of `assign_value` (source lines 145-153):
try `sqrt(value + index)`; on success the row is a residue row with that root,
otherwise take `sqrt(nonresidue * (value + index))`, whose failure is the
`.unwrap()` panic, modelled as `none`. -/
def rowWitness (sqrt : F → Option F) (nonresidue value : F) (index : ℕ) : Option (Bool × F) :=
  match sqrt (value + (index : F)) with
  | some root => some (true, root)
  | none =>
    match sqrt (nonresidue * (value + (index : F))) with
    | some root => some (false, root)
    | none => none

/-- The `is_residue` bit chosen for row `index` (meaningful when the row
witness exists). -/
def isResidueBit (sqrt : F → Option F) (nonresidue value : F) (index : ℕ) : Bool :=
  match rowWitness sqrt nonresidue value index with
  | some (b, _) => b
  | none => false

/-- The `square_root` witness chosen for row `index` (meaningful when the row
witness exists). -/
def theRoot (sqrt : F → Option F) (nonresidue value : F) (index : ℕ) : F :=
  match rowWitness sqrt nonresidue value index with
  | some (_, root) => root
  | none => 0

/-- The `u64` pattern accumulator of `assign_value` after `k` loop steps:
`pattern = 2 * pattern + u64::from(is_residue)` starting from `0`. -/
def patAcc (bit : ℕ → Bool) : ℕ → ℕ
  | 0 => 0
  | k + 1 => 2 * patAcc bit k + (if bit k then 1 else 0)

/-- The cells written for one row (loop body of `assign_value`): selectors
`always_enabled` and, for nonzero index, `index_is_nonzero`; fixed cell
`index`; advice cells `value`, `is_residue` (as the field element `1` or `0`),
`pattern` (the accumulator cast into the field) and `square_root`. -/
def mkRow (b : Bool) (root : F) (value : F) (index : ℕ) (pat : ℕ) : Row F :=
  { alwaysEnabled := true
    indexIsNonzero := decide (index ≠ 0)
    index := (index : F)
    value := value
    isResidue := if b then 1 else 0
    pattern := (pat : F)
    squareRoot := root }

/-- The row loop of `assign_value` over a list of indices, threading the
pattern accumulator; `none` models the `.unwrap()` panic of the
nonresidue branch. -/
def assignValueAux (sqrt : F → Option F) (nonresidue value : F) :
    List ℕ → ℕ → Option (List (Row F) × ℕ)
  | [], pat => some ([], pat)
  | i :: rest, pat =>
    match rowWitness sqrt nonresidue value i with
    | none => none
    | some (b, root) =>
      match assignValueAux sqrt nonresidue value rest (2 * pat + (if b then 1 else 0)) with
      | none => none
      | some (rows, patFinal) =>
        some (mkRow b root value i (2 * pat + (if b then 1 else 0)) :: rows, patFinal)

/-- `ResiduePatternChip::assign_value` (source lines 125-180): walk indices
`0 .. length`, write one row per index, return the final pattern. -/
def ResiduePatternChip.assign_value (chip : ResiduePatternChip F) (sqrt : F → Option F)
    (value : F) : Option (List (Row F) × ℕ) :=
  assignValueAux sqrt chip.nonresidue value (List.range chip.length) 0

/-- `ResiduePatternChip::assign` (source lines 110-123): one row block per
input value, blocks laid out consecutively (value `b`'s block starts at row
offset `b * length`), returning the patterns in input order. -/
def ResiduePatternChip.assign (chip : ResiduePatternChip F) (sqrt : F → Option F) :
    List F → Option (List (Row F) × List ℕ)
  | [] => some ([], [])
  | v :: vs =>
    match chip.assign_value sqrt v with
    | none => none
    | some (rows, pat) =>
      match chip.assign sqrt vs with
      | none => none
      | some (rest, pats) => some (rows ++ rest, pat :: pats)

end Chip

section ChipLemmas

variable {F : Type} [Field F] [DecidableEq F]

/-- The pattern accumulator resulting from folding bits `s, s+1, ...` for `j`
steps starting from the value `pat`. -/
def patFrom (bit : ℕ → Bool) (pat s : ℕ) : ℕ → ℕ
  | 0 => pat
  | j + 1 => 2 * patFrom bit pat s j + (if bit (s + j) then 1 else 0)

theorem patFrom_shift (bit : ℕ → Bool) (pat s : ℕ) : ∀ j,
    patFrom bit (2 * pat + (if bit s then 1 else 0)) (s + 1) j = patFrom bit pat s (j + 1) := by
  intro j
  induction j with
  | zero => rfl
  | succ j ih =>
    show 2 * patFrom bit (2 * pat + (if bit s then 1 else 0)) (s + 1) j
        + (if bit (s + 1 + j) then 1 else 0) = _
    rw [ih]
    have : s + 1 + j = s + (j + 1) := by omega
    rw [this]
    rfl

theorem patFrom_zero (bit : ℕ → Bool) : ∀ k, patFrom bit 0 0 k = patAcc bit k := by
  intro k
  induction k with
  | zero => rfl
  | succ k ih =>
    show 2 * patFrom bit 0 0 k + (if bit (0 + k) then 1 else 0) = _
    rw [ih, Nat.zero_add]
    rfl

theorem assignValueAux_range' (sqrt : F → Option F) (nonresidue value : F) :
    ∀ (n s pat : ℕ),
    (∀ j, j < n → rowWitness sqrt nonresidue value (s + j) ≠ none) →
    assignValueAux sqrt nonresidue value (List.range' s n) pat =
      some ((List.range n).map fun j =>
          mkRow (isResidueBit sqrt nonresidue value (s + j))
            (theRoot sqrt nonresidue value (s + j)) value (s + j)
            (patFrom (isResidueBit sqrt nonresidue value) pat s (j + 1)),
        patFrom (isResidueBit sqrt nonresidue value) pat s n) := by
  intro n
  induction n with
  | zero => intro s pat _; rfl
  | succ n ih =>
    intro s pat h
    have hw0 : rowWitness sqrt nonresidue value s ≠ none := h 0 (Nat.succ_pos n)
    rw [show List.range' s (n + 1) = s :: List.range' (s + 1) n from rfl]
    cases hrw : rowWitness sqrt nonresidue value s with
    | none => exact absurd hrw hw0
    | some br =>
      obtain ⟨b, r⟩ := br
      have hb : isResidueBit sqrt nonresidue value s = b := by
        rw [isResidueBit, hrw]
      have hr : theRoot sqrt nonresidue value s = r := by
        rw [theRoot, hrw]
      have hnext : ∀ j, j < n → rowWitness sqrt nonresidue value (s + 1 + j) ≠ none := by
        intro j hj
        have : s + 1 + j = s + (j + 1) := by omega
        rw [this]
        exact h (j + 1) (by omega)
      simp only [assignValueAux, hrw]
      rw [ih (s + 1) (2 * pat + (if b then 1 else 0)) hnext]
      show some _ = some _
      have hpat2 : (2 * pat + (if b then 1 else 0))
          = 2 * pat + (if isResidueBit sqrt nonresidue value s then 1 else 0) := by rw [hb]
      have hshift : ∀ j, patFrom (isResidueBit sqrt nonresidue value)
            (2 * pat + (if b then 1 else 0)) (s + 1) j
          = patFrom (isResidueBit sqrt nonresidue value) pat s (j + 1) := by
        intro j
        rw [hpat2, patFrom_shift]
      refine congrArg some (Prod.ext ?_ (hshift n))
      rw [List.range_succ_eq_map, List.map_cons, List.map_map]
      refine List.cons_eq_cons.mpr ⟨?_, ?_⟩
      · show mkRow b r value s (2 * pat + (if b then 1 else 0))
            = mkRow (isResidueBit sqrt nonresidue value s)
              (theRoot sqrt nonresidue value s) value s
              (patFrom (isResidueBit sqrt nonresidue value) pat s 1)
        simp only [patFrom, Nat.add_zero]
        simp only [hb, hr]
      · refine List.map_congr_left fun j _ => ?_
        show mkRow _ _ value (s + 1 + j) _ = _
        have hsj : s + 1 + j = s + (j + 1) := by omega
        rw [hshift (j + 1), hsj]
        rfl

theorem assignValueAux_isSome_iff (sqrt : F → Option F) (nonresidue value : F) :
    ∀ (l : List ℕ) (pat : ℕ),
    assignValueAux sqrt nonresidue value l pat ≠ none ↔
      ∀ i ∈ l, rowWitness sqrt nonresidue value i ≠ none := by
  intro l
  induction l with
  | nil => intro pat; simp [assignValueAux]
  | cons i rest ih =>
    intro pat
    constructor
    · intro hne j hj
      cases hrw : rowWitness sqrt nonresidue value i with
      | none => exact absurd (by rw [assignValueAux, hrw]) hne
      | some br =>
        obtain ⟨b, r⟩ := br
        rcases List.mem_cons.mp hj with hj0 | hjr
        · subst hj0; rw [hrw]; exact Option.some_ne_none _
        · have hrest : assignValueAux sqrt nonresidue value rest
              (2 * pat + (if b then 1 else 0)) ≠ none := by
            intro hnone
            exact hne (by rw [assignValueAux, hrw]; simp only [hnone])
          exact (ih _).mp hrest j hjr
    · intro hall
      cases hrw : rowWitness sqrt nonresidue value i with
      | none => exact absurd hrw (hall i (List.mem_cons_self i rest))
      | some br =>
        obtain ⟨b, r⟩ := br
        have hrest := (ih (2 * pat + (if b then 1 else 0))).mpr
          fun j hj => hall j (List.mem_cons_of_mem i hj)
        rw [assignValueAux, hrw]
        show (match assignValueAux sqrt nonresidue value rest
            (2 * pat + (if b then 1 else 0)) with
          | none => none
          | some (rows, patFinal) =>
            some (mkRow b r value i (2 * pat + (if b then 1 else 0)) :: rows,
              patFinal)) ≠ none
        cases hres : assignValueAux sqrt nonresidue value rest
            (2 * pat + (if b then 1 else 0)) with
        | none => exact absurd hres hrest
        | some p => simp

end ChipLemmas

section BlockLemmas

variable {F : Type} [Field F] [DecidableEq F]

/-- The row block written by `assign_value` for one input value: row `i`
holds index `i`, the block's value, the chosen `is_residue` / `square_root`
witnesses, and the pattern accumulator after `i + 1` steps. -/
def blockRows (sqrt : F → Option F) (nonresidue value : F) (L : ℕ) : List (Row F) :=
  (List.range L).map fun i =>
    mkRow (isResidueBit sqrt nonresidue value i) (theRoot sqrt nonresidue value i) value i
      (patAcc (isResidueBit sqrt nonresidue value) (i + 1))

theorem blockRows_length (sqrt : F → Option F) (nonresidue value : F) (L : ℕ) :
    (blockRows sqrt nonresidue value L).length = L := by
  rw [blockRows, List.length_map, List.length_range]

theorem assign_value_eq (chip : ResiduePatternChip F) (sqrt : F → Option F) (value : F)
    (h : ∀ i, i < chip.length → rowWitness sqrt chip.nonresidue value i ≠ none) :
    chip.assign_value sqrt value =
      some (blockRows sqrt chip.nonresidue value chip.length,
        patAcc (isResidueBit sqrt chip.nonresidue value) chip.length) := by
  rw [ResiduePatternChip.assign_value, List.range_eq_range']
  rw [assignValueAux_range' sqrt chip.nonresidue value chip.length 0 0
    (fun j hj => by rw [Nat.zero_add]; exact h j hj)]
  refine congrArg some (Prod.ext ?_ ?_)
  · show (List.range chip.length).map _ = blockRows sqrt chip.nonresidue value chip.length
    rw [blockRows]
    refine List.map_congr_left fun j _ => ?_
    simp only [Nat.zero_add, patFrom_zero]
  · show patFrom _ 0 0 chip.length = _
    rw [patFrom_zero]

theorem assign_value_isSome_iff (chip : ResiduePatternChip F) (sqrt : F → Option F) (value : F) :
    chip.assign_value sqrt value ≠ none ↔
      ∀ i, i < chip.length → rowWitness sqrt chip.nonresidue value i ≠ none := by
  rw [ResiduePatternChip.assign_value, assignValueAux_isSome_iff]
  constructor
  · intro hall i hi
    exact hall i (List.mem_range.mpr hi)
  · intro hall i hi
    exact hall i (List.mem_range.mp hi)

theorem assign_eq (chip : ResiduePatternChip F) (sqrt : F → Option F) (values : List F)
    (h : ∀ v ∈ values, ∀ i, i < chip.length → rowWitness sqrt chip.nonresidue v i ≠ none) :
    chip.assign sqrt values =
      some ((values.map fun v => blockRows sqrt chip.nonresidue v chip.length).flatten,
        values.map fun v => patAcc (isResidueBit sqrt chip.nonresidue v) chip.length) := by
  induction values with
  | nil => rfl
  | cons v vs ih =>
    rw [ResiduePatternChip.assign,
      assign_value_eq chip sqrt v (h v (List.mem_cons_self v vs)),
      ih fun w hw => h w (List.mem_cons_of_mem v hw)]
    rfl

theorem flatten_length_const {α : Type} (L : ℕ) :
    ∀ (blocks : List (List α)), (∀ bl ∈ blocks, bl.length = L) →
      blocks.flatten.length = blocks.length * L := by
  intro blocks
  induction blocks with
  | nil => intro _; simp
  | cons x xs ih =>
    intro h
    rw [List.flatten_cons, List.length_append, List.length_cons,
      ih fun bl hbl => h bl (List.mem_cons_of_mem x hbl),
      h x (List.mem_cons_self x xs)]
    ring

theorem flatten_getElem?_const {α : Type} (L : ℕ) :
    ∀ (blocks : List (List α)), (∀ bl ∈ blocks, bl.length = L) →
    ∀ (b i : ℕ) (hb : b < blocks.length), i < L →
      blocks.flatten[b * L + i]? = blocks[b][i]? := by
  intro blocks
  induction blocks with
  | nil => intro _ b i hb; exact absurd hb (Nat.not_lt_zero b)
  | cons x xs ih =>
    intro h b i hb hi
    have hxlen : x.length = L := h x (List.mem_cons_self x xs)
    have hrest : ∀ bl ∈ xs, bl.length = L := fun bl hbl => h bl (List.mem_cons_of_mem x hbl)
    cases b with
    | zero =>
      rw [List.flatten_cons, List.getElem?_append]
      have hx : 0 * L + i < x.length := by omega
      rw [if_pos hx]
      show x[0 * L + i]? = x[i]?
      have h0 : 0 * L + i = i := by omega
      rw [h0]
    | succ b =>
      have hb2 : b < xs.length := by
        rw [List.length_cons] at hb; omega
      rw [List.flatten_cons, List.getElem?_append]
      have hge : ¬ ((b + 1) * L + i < x.length) := by
        rw [hxlen]
        have : L ≤ (b + 1) * L := by
          calc L = 1 * L := (Nat.one_mul L).symm
            _ ≤ (b + 1) * L := Nat.mul_le_mul_right L (by omega)
        omega
      rw [if_neg hge]
      have heq : (b + 1) * L + i - x.length = b * L + i := by
        rw [hxlen]
        have : (b + 1) * L = b * L + L := by ring
        omega
      rw [heq, ih hrest b i hb2 hi]
      show xs[b][i]? = (x :: xs)[b + 1][i]?
      rw [List.getElem_cons_succ x xs b hb]

end BlockLemmas

section MasterLemmas

set_option linter.unusedSectionVars false

variable {F : Type} [Field F] [DecidableEq F]

theorem assign_isSome_witness (chip : ResiduePatternChip F) (sqrt : F → Option F) :
    ∀ (values : List F) (rows : List (Row F)) (pats : List ℕ),
      chip.assign sqrt values = some (rows, pats) →
      ∀ v ∈ values, ∀ i, i < chip.length → rowWitness sqrt chip.nonresidue v i ≠ none := by
  intro values
  induction values with
  | nil => intro rows pats _ v hv; exact absurd hv (List.not_mem_nil v)
  | cons v vs ih =>
    intro rows pats hrun w hw i hi
    rw [ResiduePatternChip.assign] at hrun
    cases hav : chip.assign_value sqrt v with
    | none => rw [hav] at hrun; exact absurd hrun (by simp)
    | some rp =>
      rw [hav] at hrun
      cases har : chip.assign sqrt vs with
      | none => rw [har] at hrun; exact absurd hrun (by simp)
      | some rrp =>
        rcases List.mem_cons.mp hw with hw0 | hwr
        · subst hw0
          exact (assign_value_isSome_iff chip sqrt w).mp
            (by rw [hav]; exact Option.some_ne_none rp) i hi
        · exact ih rrp.1 rrp.2 (by rw [har]) w hwr i hi

theorem blockRows_getElem (sqrt : F → Option F) (nonresidue value : F) (L i : ℕ)
    (hi : i < L) (hlen : i < (blockRows sqrt nonresidue value L).length) :
    (blockRows sqrt nonresidue value L)[i]
      = mkRow (isResidueBit sqrt nonresidue value i) (theRoot sqrt nonresidue value i)
          value i (patAcc (isResidueBit sqrt nonresidue value) (i + 1)) := by
  show ((List.range L).map _)[i] = _
  simp [List.getElem_map, List.getElem_range]

/-- Master characterization of a successful `assign` run: the row table is the
concatenation of one `blockRows` block per value, the row at flat offset
`b * length + i` is row `i` of value `b`'s block, and the returned patterns
are the per-value accumulator values. -/
theorem assign_rows_getElem (chip : ResiduePatternChip F) (sqrt : F → Option F)
    (values : List F) (rows : List (Row F)) (pats : List ℕ)
    (hrun : chip.assign sqrt values = some (rows, pats)) :
    rows.length = values.length * chip.length ∧
    pats = (values.map fun v => patAcc (isResidueBit sqrt chip.nonresidue v) chip.length) ∧
    ∀ (b i : ℕ) (hb : b < values.length) (hi : i < chip.length)
      (hj : b * chip.length + i < rows.length),
      rows[b * chip.length + i]
        = mkRow (isResidueBit sqrt chip.nonresidue values[b] i)
            (theRoot sqrt chip.nonresidue values[b] i) values[b] i
            (patAcc (isResidueBit sqrt chip.nonresidue values[b]) (i + 1)) := by
  have hall := assign_isSome_witness chip sqrt values rows pats hrun
  have heq := assign_eq chip sqrt values hall
  rw [hrun] at heq
  have hpair := Option.some.inj heq
  have hrows : rows = (values.map fun v =>
      blockRows sqrt chip.nonresidue v chip.length).flatten := congrArg Prod.fst hpair
  have hpats : pats = values.map fun v =>
      patAcc (isResidueBit sqrt chip.nonresidue v) chip.length := congrArg Prod.snd hpair
  have hblocklen : ∀ bl ∈ (values.map fun v =>
      blockRows sqrt chip.nonresidue v chip.length), bl.length = chip.length := by
    intro bl hbl
    obtain ⟨v, _, hv⟩ := List.mem_map.mp hbl
    rw [← hv, blockRows_length]
  have hlen : rows.length = values.length * chip.length := by
    rw [hrows, flatten_length_const chip.length _ hblocklen, List.length_map]
  refine ⟨hlen, hpats, ?_⟩
  intro b i hb hi hj
  have hbm : b < (values.map fun v =>
      blockRows sqrt chip.nonresidue v chip.length).length := by
    rw [List.length_map]; exact hb
  have hq := flatten_getElem?_const chip.length _ hblocklen b i hbm hi
  have hjf : b * chip.length + i < (values.map fun v =>
      blockRows sqrt chip.nonresidue v chip.length).flatten.length := by
    rw [flatten_length_const chip.length _ hblocklen, List.length_map]
    rw [hlen] at hj
    exact hj
  have hgb : (values.map fun v => blockRows sqrt chip.nonresidue v chip.length)[b]
      = blockRows sqrt chip.nonresidue values[b] chip.length := List.getElem_map _
  have hbi : i < ((values.map fun v =>
      blockRows sqrt chip.nonresidue v chip.length)[b]).length := by
    rw [hgb, blockRows_length]; exact hi
  rw [List.getElem?_eq_getElem hjf, List.getElem?_eq_getElem hbi] at hq
  have hvv := Option.some.inj hq
  have hstep : (values.map fun v =>
      blockRows sqrt chip.nonresidue v chip.length)[b][i]
      = mkRow (isResidueBit sqrt chip.nonresidue values[b] i)
          (theRoot sqrt chip.nonresidue values[b] i) values[b] i
          (patAcc (isResidueBit sqrt chip.nonresidue values[b]) (i + 1)) := by
    have hbi2 : i < (blockRows sqrt chip.nonresidue values[b] chip.length).length := by
      rw [blockRows_length]; exact hi
    calc (values.map fun v => blockRows sqrt chip.nonresidue v chip.length)[b][i]
        = (blockRows sqrt chip.nonresidue values[b] chip.length)[i] := by
          congr 1
      _ = _ := blockRows_getElem sqrt chip.nonresidue values[b] chip.length i hi hbi2
  have hflat : rows[b * chip.length + i] = (values.map fun v =>
      blockRows sqrt chip.nonresidue v chip.length).flatten[b * chip.length + i] := by
    congr 1
  rw [hflat, hvv, hstep]

theorem rowWitness_cases (sqrt : F → Option F) (nonresidue value : F) (i : ℕ) (b : Bool) (r : F)
    (h : rowWitness sqrt nonresidue value i = some (b, r)) :
    (b = true ∧ sqrt (value + (i : F)) = some r) ∨
    (b = false ∧ sqrt (value + (i : F)) = none ∧
      sqrt (nonresidue * (value + (i : F))) = some r) := by
  rw [rowWitness] at h
  cases hs : sqrt (value + (i : F)) with
  | some root =>
    rw [hs] at h
    have h2 : (true, root) = (b, r) := Option.some.inj h
    injection h2 with hb hr
    subst hb
    subst hr
    exact Or.inl ⟨rfl, rfl⟩
  | none =>
    rw [hs] at h
    cases hs2 : sqrt (nonresidue * (value + (i : F))) with
    | some root =>
      rw [hs2] at h
      have h2 : (false, root) = (b, r) := Option.some.inj h
      injection h2 with hb hr
      subst hb
      subst hr
      exact Or.inr ⟨rfl, rfl, rfl⟩
    | none => rw [hs2] at h; exact absurd h (by simp)

end MasterLemmas

section RowFacts

set_option linter.unusedSectionVars false

variable {F : Type} [Field F] [DecidableEq F]

theorem rowWitness_eq (sqrt : F → Option F) (nonresidue value : F) (i : ℕ)
    (h : rowWitness sqrt nonresidue value i ≠ none) :
    rowWitness sqrt nonresidue value i
      = some (isResidueBit sqrt nonresidue value i, theRoot sqrt nonresidue value i) := by
  cases hr : rowWitness sqrt nonresidue value i with
  | none => exact absurd hr h
  | some br =>
    obtain ⟨b, r⟩ := br
    rw [isResidueBit, theRoot, hr]

theorem theRoot_square (sqrt : F → Option F) (nonresidue value : F) (i : ℕ)
    (hsome : ∀ x r, sqrt x = some r → r * r = x)
    (hw : rowWitness sqrt nonresidue value i ≠ none) :
    (isResidueBit sqrt nonresidue value i = true →
      theRoot sqrt nonresidue value i * theRoot sqrt nonresidue value i
        = value + (i : F)) ∧
    (isResidueBit sqrt nonresidue value i = false →
      theRoot sqrt nonresidue value i * theRoot sqrt nonresidue value i
        = nonresidue * (value + (i : F))) := by
  have heq := rowWitness_eq sqrt nonresidue value i hw
  rcases rowWitness_cases sqrt nonresidue value i _ _ heq with ⟨hb, hs⟩ | ⟨hb, _, hs2⟩
  · constructor
    · intro _; exact hsome _ _ hs
    · intro hfalse; rw [hb] at hfalse; exact absurd hfalse (by simp)
  · constructor
    · intro htrue; rw [hb] at htrue; exact absurd htrue (by simp)
    · intro _; exact hsome _ _ hs2

theorem isResidueBit_true_iff (sqrt : F → Option F) (nonresidue value : F) (i : ℕ)
    (hsome : ∀ x r, sqrt x = some r → r * r = x)
    (hnone : ∀ x, sqrt x = none → ¬ IsSquare x) :
    isResidueBit sqrt nonresidue value i = true ↔ IsSquare (value + (i : F)) := by
  cases hr : rowWitness sqrt nonresidue value i with
  | none =>
    rw [isResidueBit, hr]
    have hs : sqrt (value + (i : F)) = none := by
      rw [rowWitness] at hr
      cases hs : sqrt (value + (i : F)) with
      | some root => rw [hs] at hr; exact absurd hr (by simp)
      | none => rfl
    exact iff_of_false (by simp) (hnone _ hs)
  | some br =>
    obtain ⟨b, r⟩ := br
    rw [isResidueBit, hr]
    rcases rowWitness_cases sqrt nonresidue value i b r hr with ⟨hb, hs⟩ | ⟨hb, hs, _⟩
    · subst hb
      simp only [true_iff]
      exact ⟨r, (hsome _ _ hs).symm⟩
    · subst hb
      exact iff_of_false (by simp) (hnone _ hs)

theorem patAcc_lt (bit : ℕ → Bool) : ∀ k, patAcc bit k < 2 ^ k := by
  intro k
  induction k with
  | zero => simp [patAcc]
  | succ k ih =>
    show 2 * patAcc bit k + (if bit k then 1 else 0) < 2 ^ (k + 1)
    have h2 : (2 : ℕ) ^ (k + 1) = 2 * 2 ^ k := by rw [pow_succ]; ring
    by_cases hb : bit k <;> simp [hb] <;> omega

theorem patAcc_congr (b1 b2 : ℕ → Bool) : ∀ k, (∀ i, i < k → b1 i = b2 i) →
    patAcc b1 k = patAcc b2 k := by
  intro k
  induction k with
  | zero => intro _; rfl
  | succ k ih =>
    intro h
    show 2 * patAcc b1 k + (if b1 k then 1 else 0) = 2 * patAcc b2 k + (if b2 k then 1 else 0)
    rw [ih fun i hi => h i (by omega), h k (by omega)]

theorem foldl_range_patAcc (b : ℕ → Bool) : ∀ k,
    (List.range k).foldl (fun p i => 2 * p + (if b i then 1 else 0)) 0 = patAcc b k := by
  intro k
  induction k with
  | zero => rfl
  | succ k ih =>
    rw [List.range_succ, List.foldl_append, List.foldl_cons, List.foldl_nil, ih]
    rfl

/-- Every row of a successful `assign` run sits at block coordinates
`(b, i)` and equals the corresponding `mkRow`. -/
theorem assign_row_shape (chip : ResiduePatternChip F) (sqrt : F → Option F)
    (values : List F) (rows : List (Row F)) (pats : List ℕ)
    (hrun : chip.assign sqrt values = some (rows, pats)) :
    ∀ (j : ℕ) (hj : j < rows.length),
      ∃ (b i : ℕ) (hb : b < values.length), i < chip.length ∧ j = b * chip.length + i ∧
        rows[j] = mkRow (isResidueBit sqrt chip.nonresidue values[b] i)
          (theRoot sqrt chip.nonresidue values[b] i) values[b] i
          (patAcc (isResidueBit sqrt chip.nonresidue values[b]) (i + 1)) := by
  obtain ⟨hlen, _, hget⟩ := assign_rows_getElem chip sqrt values rows pats hrun
  intro j hj
  have hL : 0 < chip.length := by
    rcases Nat.eq_zero_or_pos chip.length with h0 | h
    · rw [h0, Nat.mul_zero] at hlen; omega
    · exact h
  have hb : j / chip.length < values.length := by
    rw [Nat.div_lt_iff_lt_mul hL]
    rw [hlen] at hj
    exact hj
  have hi : j % chip.length < chip.length := Nat.mod_lt _ hL
  have hj_eq : (j / chip.length) * chip.length + j % chip.length = j := by
    rw [Nat.mul_comm]
    exact Nat.div_add_mod j chip.length
  have hj2 : (j / chip.length) * chip.length + j % chip.length < rows.length := by
    rw [hj_eq]; exact hj
  have key := hget (j / chip.length) (j % chip.length) hb hi hj2
  refine ⟨j / chip.length, j % chip.length, hb, hi, hj_eq.symm, ?_⟩
  have hswap : rows[j] = rows[(j / chip.length) * chip.length + j % chip.length] := by
    congr 1
    exact hj_eq.symm
  rw [hswap, key]

end RowFacts

/-- C4: in every row written by a successful `assign` run (nonresidue
configured as a genuine nonresidue), `is_residue = 1` implies
`square_root^2 = value + index`, `is_residue = 0` implies
`square_root^2 = nonresidue * (value + index)`, and every `is_residue`
witness is exactly the field element `0` or `1`. -/
theorem assign_square_relation_binary {F : Type} [Field F] [DecidableEq F]
    (sqrt : F → Option F)
    (hsome : ∀ x r, sqrt x = some r → r * r = x)
    (chip : ResiduePatternChip F) (hnr : ¬ IsSquare chip.nonresidue)
    (values : List F) (rows : List (Row F)) (pats : List ℕ)
    (hrun : chip.assign sqrt values = some (rows, pats)) :
    ∀ (j : ℕ) (hj : j < rows.length),
      (rows[j].isResidue = 1 →
        rows[j].squareRoot * rows[j].squareRoot = rows[j].value + rows[j].index) ∧
      (rows[j].isResidue = 0 →
        rows[j].squareRoot * rows[j].squareRoot
          = chip.nonresidue * (rows[j].value + rows[j].index)) ∧
      (rows[j].isResidue = 0 ∨ rows[j].isResidue = 1) := by
  intro j hj
  obtain ⟨b, i, hb, hi, hjeq, hrow⟩ := assign_row_shape chip sqrt values rows pats hrun j hj
  have hw := assign_isSome_witness chip sqrt values rows pats hrun values[b]
    (List.getElem_mem hb) i hi
  have hsq := theRoot_square sqrt chip.nonresidue values[b] i hsome hw
  rw [hrow]
  cases hbit : isResidueBit sqrt chip.nonresidue values[b] i with
  | true =>
    exact ⟨fun _ => hsq.1 hbit, fun h0 => absurd h0 one_ne_zero, Or.inr rfl⟩
  | false =>
    exact ⟨fun h1 => absurd h1 zero_ne_one, fun _ => hsq.2 hbit, Or.inl rfl⟩

/-- C5: in every block of a successful `assign` run, every row but the
block's first satisfies `pattern_cur = 2 * pattern_prev + is_residue_cur`,
and the block's first row has `pattern = is_residue`. -/
theorem assign_pattern_accumulation {F : Type} [Field F] [DecidableEq F]
    (sqrt : F → Option F) (chip : ResiduePatternChip F)
    (values : List F) (rows : List (Row F)) (pats : List ℕ)
    (hrun : chip.assign sqrt values = some (rows, pats)) :
    ∀ (b i : ℕ) (hb : b < values.length) (hi : i < chip.length)
      (hj : b * chip.length + i < rows.length),
      (∀ (hi0 : i ≠ 0) (hj2 : b * chip.length + (i - 1) < rows.length),
        rows[b * chip.length + i].pattern
          = 2 * rows[b * chip.length + (i - 1)].pattern
            + rows[b * chip.length + i].isResidue) ∧
      (i = 0 → rows[b * chip.length + i].pattern
        = rows[b * chip.length + i].isResidue) := by
  intro b i hb hi hj
  obtain ⟨_, _, hget⟩ := assign_rows_getElem chip sqrt values rows pats hrun
  have key := hget b i hb hi hj
  constructor
  · intro hi0 hj2
    have keyp := hget b (i - 1) hb (by omega) hj2
    rw [key, keyp]
    show ((patAcc (isResidueBit sqrt chip.nonresidue values[b]) (i + 1) : ℕ) : F)
      = 2 * ((patAcc (isResidueBit sqrt chip.nonresidue values[b]) (i - 1 + 1) : ℕ) : F)
        + (if isResidueBit sqrt chip.nonresidue values[b] i then 1 else 0)
    have h1 : i - 1 + 1 = i := by omega
    rw [h1]
    have hstep : patAcc (isResidueBit sqrt chip.nonresidue values[b]) (i + 1)
        = 2 * patAcc (isResidueBit sqrt chip.nonresidue values[b]) i
          + (if isResidueBit sqrt chip.nonresidue values[b] i then 1 else 0) := rfl
    rw [hstep]
    push_cast [apply_ite (fun n : ℕ => (n : F))]
    ring
  · intro hi0
    subst hi0
    rw [key]
    show ((patAcc (isResidueBit sqrt chip.nonresidue values[b]) (0 + 1) : ℕ) : F)
      = (if isResidueBit sqrt chip.nonresidue values[b] 0 then 1 else 0)
    cases hbit : isResidueBit sqrt chip.nonresidue values[b] 0 <;>
      simp [patAcc, hbit]

/-- C6: a successful `assign` run lays out one block of exactly `length`
rows per value (block `b` at row offsets `b * length + i`), with index cells
`0, 1, ..., length - 1` and the block's value in every row; the
value-continuity relation `index * (value_cur - value_prev)` is zero on
every assigned row, and on rows with nonzero index it forces
`value_cur = value_prev`. -/
theorem assign_block_structure {F : Type} [Field F] [DecidableEq F]
    (sqrt : F → Option F) (chip : ResiduePatternChip F)
    (values : List F) (rows : List (Row F)) (pats : List ℕ)
    (hrun : chip.assign sqrt values = some (rows, pats)) :
    rows.length = values.length * chip.length ∧
    (∀ (b i : ℕ) (hb : b < values.length) (hi : i < chip.length)
        (hj : b * chip.length + i < rows.length),
        rows[b * chip.length + i].index = (i : F) ∧
        rows[b * chip.length + i].value = values[b]) ∧
    (∀ (j : ℕ) (hj : j < rows.length) (hj1 : j - 1 < rows.length), 0 < j →
        rows[j].index * (rows[j].value - rows[j - 1].value) = 0 ∧
        (rows[j].index ≠ 0 → rows[j].value = rows[j - 1].value)) ∧
    (∀ (h0 : 0 < rows.length), rows[0].index = 0) := by
  obtain ⟨hlen, _, hget⟩ := assign_rows_getElem chip sqrt values rows pats hrun
  refine ⟨hlen, ?_, ?_, ?_⟩
  · intro b i hb hi hj
    rw [hget b i hb hi hj]
    exact ⟨rfl, rfl⟩
  · intro j hj hj1 hj0
    obtain ⟨b, i, hb, hi, hjeq, hrow⟩ := assign_row_shape chip sqrt values rows pats hrun j hj
    by_cases hi0 : i = 0
    · have hidx : rows[j].index = 0 := by
        rw [hrow, hi0]
        show ((0 : ℕ) : F) = 0
        exact Nat.cast_zero
      rw [hidx]
      exact ⟨by ring, fun hne => absurd rfl hne⟩
    · have hj2 : b * chip.length + (i - 1) < rows.length := by omega
      have keyp := hget b (i - 1) hb (by omega) hj2
      have hswap : rows[j - 1] = rows[b * chip.length + (i - 1)] := by
        congr 1
        omega
      have hval : rows[j].value = rows[j - 1].value := by
        rw [hrow, hswap, keyp]
        rfl
      rw [hval]
      exact ⟨by ring, fun _ => rfl⟩
  · intro h0
    obtain ⟨b, i, hb, hi, hjeq, hrow⟩ :=
      assign_row_shape chip sqrt values rows pats hrun 0 h0
    have hi0 : i = 0 := by omega
    rw [hrow, hi0]
    show ((0 : ℕ) : F) = 0
    exact Nat.cast_zero

/-- C1: over `Fr` with window length 64, a successful `assign` run returns
exactly one pattern per input value, in input order, and each pattern equals
the pure reference `residue_pattern` of the corresponding value. The `sqrt`
oracle is the external field's square-root operation, constrained by its
contract: a returned root squares to the input, and `none` means no root
exists. -/
theorem assign_oracle_equivalence (sqrt : Fr → Option Fr)
    (hsome : ∀ x r, sqrt x = some r → r * r = x)
    (hnone : ∀ x, sqrt x = none → ¬ IsSquare x)
    (nonresidue : Fr) (values : List Fr) (rows : List (Row Fr)) (pats : List ℕ)
    (hrun : (ResiduePatternChip.mk 64 nonresidue).assign sqrt values = some (rows, pats)) :
    pats.length = values.length ∧ pats = values.map residue_pattern := by
  obtain ⟨_, hpats, _⟩ :=
    assign_rows_getElem (ResiduePatternChip.mk 64 nonresidue) sqrt values rows pats hrun
  have hmap : (values.map fun v =>
      patAcc (isResidueBit sqrt (ResiduePatternChip.mk 64 nonresidue).nonresidue v)
        (ResiduePatternChip.mk 64 nonresidue).length)
      = values.map residue_pattern := by
    refine List.map_congr_left fun v _ => ?_
    show patAcc (isResidueBit sqrt nonresidue v) 64 = residue_pattern v
    have h1 : residue_pattern v
        = patAcc (fun i => decide (IsSquare (v + (i : ℕ) : Fr))) 64 := by
      show (List.range 64).foldl
          (fun pattern i => 2 * pattern + if IsSquare (v + (i : ℕ)) then 1 else 0) 0 = _
      rw [← foldl_range_patAcc (fun i => decide (IsSquare (v + (i : ℕ) : Fr))) 64]
      refine List.foldl_ext _ _ 0 fun p i _ => ?_
      congr 1
      exact if_congr (by rw [decide_eq_true_eq]) rfl rfl
    have h2 : patAcc (isResidueBit sqrt nonresidue v) 64
        = patAcc (fun i => decide (IsSquare (v + (i : ℕ) : Fr))) 64 := by
      refine patAcc_congr _ _ 64 fun i _ => ?_
      have hiff := isResidueBit_true_iff sqrt nonresidue v i hsome hnone
      by_cases hP : IsSquare (v + (i : ℕ) : Fr)
      · rw [hiff.mpr hP, decide_eq_true hP]
      · have hne : isResidueBit sqrt nonresidue v i ≠ true := fun ht => hP (hiff.mp ht)
        rw [decide_eq_false hP]
        exact Bool.eq_false_iff.mpr hne
    rw [h1, h2]
  rw [hpats, hmap]
  exact ⟨by rw [List.length_map], rfl⟩

/-- C10: for any chip length at most 64, the `u64` pattern accumulator of
`assign_value` is bounded by `2 ^ (i + 1)` after processing index `i`
(unconditionally), so each update `2 * pattern + u64::from(is_residue)` stays
below `2 ^ 64` and the returned pattern fits a `u64`; the chip itself does not
check `length ≤ 64`, so this bound is the only overflow protection. -/
theorem assign_value_pattern_bound {F : Type} [Field F] [DecidableEq F]
    (sqrt : F → Option F) (chip : ResiduePatternChip F) (value : F)
    (hL : chip.length ≤ 64) :
    (∀ i : ℕ, patAcc (isResidueBit sqrt chip.nonresidue value) (i + 1) < 2 ^ (i + 1)) ∧
    (∀ i : ℕ, i < chip.length →
      2 * patAcc (isResidueBit sqrt chip.nonresidue value) i
        + (if isResidueBit sqrt chip.nonresidue value i then 1 else 0) < 2 ^ 64) ∧
    (∀ (rows : List (Row F)) (pat : ℕ),
      chip.assign_value sqrt value = some (rows, pat) → pat < 2 ^ 64) := by
  refine ⟨fun i => patAcc_lt _ _, fun i hi => ?_, fun rows pat hrun => ?_⟩
  · have h := patAcc_lt (isResidueBit sqrt chip.nonresidue value) (i + 1)
    have hstep : patAcc (isResidueBit sqrt chip.nonresidue value) (i + 1)
        = 2 * patAcc (isResidueBit sqrt chip.nonresidue value) i
          + (if isResidueBit sqrt chip.nonresidue value i then 1 else 0) := rfl
    rw [hstep] at h
    have hmono : (2 : ℕ) ^ (i + 1) ≤ 2 ^ 64 := Nat.pow_le_pow_right (by omega) (by omega)
    omega
  · have hne : chip.assign_value sqrt value ≠ none := by
      rw [hrun]; exact Option.some_ne_none _
    have hwit := (assign_value_isSome_iff chip sqrt value).mp hne
    have heq := assign_value_eq chip sqrt value hwit
    rw [hrun] at heq
    have hpat : pat = patAcc (isResidueBit sqrt chip.nonresidue value) chip.length :=
      congrArg Prod.snd (Option.some.inj heq)
    rw [hpat]
    have h := patAcc_lt (isResidueBit sqrt chip.nonresidue value) chip.length
    have hmono : (2 : ℕ) ^ chip.length ≤ 2 ^ 64 := Nat.pow_le_pow_right (by omega) hL
    omega

section Gates

variable {F : Type} [Field F] [DecidableEq F]

/-- A selector flag as the field multiplier it contributes to a gate. -/
def selVal (b : Bool) : F := if b then 1 else 0

/-- Gate 1, "value does not change if index is non-zero":
`index * (value_cur - value_prev)`. On the region's first row the
`Rotation::prev` cell lies outside the region, so the relation vanishes for
every possible out-of-region value exactly when `index = 0`; the `none` case
returns `index` itself, which is zero under exactly that condition. -/
def gate1 (prev : Option (Row F)) (cur : Row F) : F :=
  match prev with
  | some p => cur.index * (cur.value - p.value)
  | none => cur.index

/-- Gate 2, "is_residue is binary". -/
def gate2 (cur : Row F) : F :=
  selVal cur.alwaysEnabled * (cur.isResidue * (1 - cur.isResidue))

/-- Gate 3, "square_root^2 = value + index if is_residue". -/
def gate3 (cur : Row F) : F :=
  selVal cur.alwaysEnabled
    * (cur.isResidue * (cur.squareRoot * cur.squareRoot - (cur.value + cur.index)))

/-- Gate 4, "square_root^2 = nonresidue * (value + index) if not is_residue". -/
def gate4 (nonresidue : F) (cur : Row F) : F :=
  selVal cur.alwaysEnabled
    * ((1 - cur.isResidue)
      * (cur.squareRoot * cur.squareRoot - nonresidue * (cur.value + cur.index)))

/-- Gate 5, "current pattern = is_residue + 2 * previous pattern". On the
region's first row the previous `pattern` cell lies outside the region, so
the relation vanishes for every possible value exactly when the
`index_is_nonzero` selector is off. -/
def gate5 (prev : Option (Row F)) (cur : Row F) : F :=
  match prev with
  | some p => selVal cur.indexIsNonzero * (cur.pattern - 2 * p.pattern - cur.isResidue)
  | none => selVal cur.indexIsNonzero

/-- All five gate relations hold (evaluate to zero) at one row. -/
def rowOk (nonresidue : F) (prev : Option (Row F)) (cur : Row F) : Bool :=
  decide (gate1 prev cur = 0) && decide (gate2 cur = 0) && decide (gate3 cur = 0)
    && decide (gate4 nonresidue cur = 0) && decide (gate5 prev cur = 0)

/-- All five gate relations hold on every row of a table, threading each
row as the next row's `prev`. -/
def tableOk (nonresidue : F) : Option (Row F) → List (Row F) → Bool
  | _, [] => true
  | prev, cur :: rest => rowOk nonresidue prev cur && tableOk nonresidue (some cur) rest

/-- Replace the `is_residue` cell of one row by its boolean negation
`1 - is_residue`, leaving every other cell unchanged. -/
def flipRow (r : Row F) : Row F :=
  { r with isResidue := 1 - r.isResidue }

/-- Apply `flipRow` at one position of the table. -/
def flipAt : ℕ → List (Row F) → List (Row F)
  | _, [] => []
  | 0, r :: t => flipRow r :: t
  | j + 1, r :: t => r :: flipAt j t

theorem rowOk_false_of_gate3 (nonresidue : F) (prev : Option (Row F)) (cur : Row F)
    (h : gate3 cur ≠ 0) : rowOk nonresidue prev cur = false := by
  simp [rowOk, h]

theorem rowOk_false_of_gate4 (nonresidue : F) (prev : Option (Row F)) (cur : Row F)
    (h : gate4 nonresidue cur ≠ 0) : rowOk nonresidue prev cur = false := by
  simp [rowOk, h]

theorem rowOk_false_of_gate5 (nonresidue : F) (prev : Option (Row F)) (cur : Row F)
    (h : gate5 prev cur ≠ 0) : rowOk nonresidue prev cur = false := by
  simp [rowOk, h]

theorem tableOk_false_at (nonresidue : F) : ∀ (l : List (Row F)) (prev : Option (Row F))
    (j : ℕ) (hj : j < l.length),
    rowOk nonresidue (if j = 0 then prev else l[j - 1]?) l[j] = false →
    tableOk nonresidue prev l = false := by
  intro l
  induction l with
  | nil => intro prev j hj; exact absurd hj (Nat.not_lt_zero j)
  | cons r t ih =>
    intro prev j hj hfail
    cases j with
    | zero =>
      rw [if_pos rfl] at hfail
      show (rowOk nonresidue prev r && tableOk nonresidue (some r) t) = false
      rw [show (r :: t)[0] = r from rfl] at hfail
      rw [hfail, Bool.false_and]
    | succ k =>
      show (rowOk nonresidue prev r && tableOk nonresidue (some r) t) = false
      have hk : k < t.length := by
        rw [List.length_cons] at hj; omega
      rw [if_neg (Nat.succ_ne_zero k)] at hfail
      rw [show k + 1 - 1 = k from rfl] at hfail
      rw [show (r :: t)[k + 1] = t[k] from List.getElem_cons_succ r t k hj] at hfail
      have hfail2 : rowOk nonresidue (if k = 0 then some r else t[k - 1]?) t[k] = false := by
        cases k with
        | zero =>
          rw [if_pos rfl]
          rw [List.getElem?_cons_zero] at hfail
          exact hfail
        | succ m =>
          rw [if_neg (Nat.succ_ne_zero m)]
          rw [List.getElem?_cons_succ] at hfail
          exact hfail
      rw [ih (some r) k hk hfail2, Bool.and_false]

theorem flipAt_length : ∀ (j : ℕ) (l : List (Row F)), (flipAt j l).length = l.length := by
  intro j l
  induction l generalizing j with
  | nil => cases j <;> rfl
  | cons r t ih =>
    cases j with
    | zero => rfl
    | succ k => show (r :: flipAt k t).length = _; rw [List.length_cons, ih k, List.length_cons]

theorem flipAt_getElem? : ∀ (j k : ℕ) (l : List (Row F)),
    (flipAt j l)[k]? = if k = j then (l[j]?).map flipRow else l[k]? := by
  intro j k l
  induction l generalizing j k with
  | nil => cases j <;> simp [flipAt]
  | cons r t ih =>
    cases j with
    | zero =>
      cases k with
      | zero =>
        rw [if_pos rfl]
        show (flipRow r :: t)[0]? = _
        rw [List.getElem?_cons_zero, List.getElem?_cons_zero]
        rfl
      | succ m =>
        rw [if_neg (Nat.succ_ne_zero m)]
        show (flipRow r :: t)[m + 1]? = _
        rw [List.getElem?_cons_succ, List.getElem?_cons_succ]
    | succ n =>
      cases k with
      | zero =>
        rw [if_neg (Ne.symm (Nat.succ_ne_zero n))]
        show (r :: flipAt n t)[0]? = _
        rw [List.getElem?_cons_zero, List.getElem?_cons_zero]
      | succ m =>
        show (r :: flipAt n t)[m + 1]? = _
        rw [List.getElem?_cons_succ, ih n m]
        by_cases hmn : m = n
        · rw [if_pos hmn, if_pos (by omega)]
          rw [show ((r :: t)[n + 1]?) = t[n]? from List.getElem?_cons_succ]
        · rw [if_neg hmn, if_neg (by omega), List.getElem?_cons_succ]

end Gates

section Tamper

variable {F : Type} [Field F] [DecidableEq F]

theorem flip_breaks_gate5 (prev cur : Row F) (hsel : cur.indexIsNonzero = true)
    (hacc : cur.pattern = 2 * prev.pattern + cur.isResidue)
    (hbin : cur.isResidue = 0 ∨ cur.isResidue = 1) :
    gate5 (some prev) (flipRow cur) ≠ 0 := by
  show selVal (flipRow cur).indexIsNonzero
      * ((flipRow cur).pattern - 2 * prev.pattern - (flipRow cur).isResidue) ≠ 0
  have h1 : (flipRow cur).indexIsNonzero = true := hsel
  have h2 : (flipRow cur).pattern = cur.pattern := rfl
  have h3 : (flipRow cur).isResidue = 1 - cur.isResidue := rfl
  rw [h1, h2, h3, hacc]
  show (1 : F) * (2 * prev.pattern + cur.isResidue - 2 * prev.pattern
    - (1 - cur.isResidue)) ≠ 0
  rcases hbin with h0 | h1
  · rw [h0]
    intro hc
    have : (-1 : F) = 0 := by linear_combination hc
    exact neg_ne_zero.mpr one_ne_zero this
  · rw [h1]
    intro hc
    have : (1 : F) = 0 := by linear_combination hc
    exact one_ne_zero this

theorem flip_breaks_gate34 (nonresidue : F) (cur : Row F) (hAE : cur.alwaysEnabled = true)
    (hcand : cur.value + cur.index ≠ 0) (hnr1 : nonresidue ≠ 1)
    (hres : cur.isResidue = 1 → cur.squareRoot * cur.squareRoot = cur.value + cur.index)
    (hnres : cur.isResidue = 0 →
      cur.squareRoot * cur.squareRoot = nonresidue * (cur.value + cur.index))
    (hbin : cur.isResidue = 0 ∨ cur.isResidue = 1) :
    gate3 (flipRow cur) ≠ 0 ∨ gate4 nonresidue (flipRow cur) ≠ 0 := by
  have hAE2 : (flipRow cur).alwaysEnabled = true := hAE
  rcases hbin with h0 | h1
  · left
    have hroot := hnres h0
    show selVal (flipRow cur).alwaysEnabled
        * ((flipRow cur).isResidue
          * ((flipRow cur).squareRoot * (flipRow cur).squareRoot
            - ((flipRow cur).value + (flipRow cur).index))) ≠ 0
    rw [hAE2]
    show (1 : F) * ((1 - cur.isResidue)
      * (cur.squareRoot * cur.squareRoot - (cur.value + cur.index))) ≠ 0
    rw [h0, hroot]
    intro hc
    have h2 : (nonresidue - 1) * (cur.value + cur.index) = 0 := by linear_combination hc
    rcases mul_eq_zero.mp h2 with hz | hz
    · exact hnr1 (by linear_combination hz)
    · exact hcand hz
  · right
    have hroot := hres h1
    show selVal (flipRow cur).alwaysEnabled
        * ((1 - (flipRow cur).isResidue)
          * ((flipRow cur).squareRoot * (flipRow cur).squareRoot
            - nonresidue * ((flipRow cur).value + (flipRow cur).index))) ≠ 0
    rw [hAE2]
    show (1 : F) * ((1 - (1 - cur.isResidue))
      * (cur.squareRoot * cur.squareRoot - nonresidue * (cur.value + cur.index))) ≠ 0
    rw [h1, hroot]
    intro hc
    have h2 : (1 - nonresidue) * (cur.value + cur.index) = 0 := by linear_combination hc
    rcases mul_eq_zero.mp h2 with hz | hz
    · exact hnr1 (by linear_combination -hz)
    · exact hcand hz

end Tamper

/-- C3 (amended): in a row table produced by a successful `assign` run with a
genuine nonresidue, flipping the `is_residue` witness of any single row makes
one of the five gate relations nonzero on an active row — except at a block's
first row whose `value + index` is zero (there `square_root = 0` satisfies
both square gates and the accumulation gate is inactive, so the flip is
undetected; see the counterexample). The detected rows are exactly those with
the `index_is_nonzero` selector on, or with `value + index ≠ 0`. -/
theorem tamper_flip_detected {F : Type} [Field F] [DecidableEq F]
    (sqrt : F → Option F)
    (hsome : ∀ x r, sqrt x = some r → r * r = x)
    (chip : ResiduePatternChip F) (hnr : ¬ IsSquare chip.nonresidue)
    (values : List F) (rows : List (Row F)) (pats : List ℕ)
    (hrun : chip.assign sqrt values = some (rows, pats))
    (j : ℕ) (hj : j < rows.length)
    (htarget : rows[j].value + rows[j].index ≠ 0 ∨ rows[j].indexIsNonzero = true) :
    tableOk chip.nonresidue none (flipAt j rows) = false := by
  obtain ⟨hlen, hpats, hget⟩ := assign_rows_getElem chip sqrt values rows pats hrun
  obtain ⟨b, i, hb, hi, hjeq, hrow⟩ := assign_row_shape chip sqrt values rows pats hrun j hj
  have hw := assign_isSome_witness chip sqrt values rows pats hrun values[b]
    (List.getElem_mem hb) i hi
  have hsq := theRoot_square sqrt chip.nonresidue values[b] i hsome hw
  have hne1 : chip.nonresidue ≠ 1 := fun h => hnr (h ▸ ⟨1, by ring⟩)
  have hjf : j < (flipAt j rows).length := by rw [flipAt_length]; exact hj
  have hcur : (flipAt j rows)[j] = flipRow rows[j] := by
    have h1 := flipAt_getElem? j j rows
    rw [if_pos rfl, List.getElem?_eq_getElem hj, List.getElem?_eq_getElem hjf] at h1
    exact Option.some.inj h1
  refine tableOk_false_at chip.nonresidue (flipAt j rows) none j hjf ?_
  rw [hcur]
  have hAE : rows[j].alwaysEnabled = true := by rw [hrow]; rfl
  have hbin : rows[j].isResidue = 0 ∨ rows[j].isResidue = 1 := by
    rw [hrow]
    cases hbit : isResidueBit sqrt chip.nonresidue values[b] i
    · exact Or.inl rfl
    · exact Or.inr rfl
  have hres : rows[j].isResidue = 1 →
      rows[j].squareRoot * rows[j].squareRoot = rows[j].value + rows[j].index := by
    rw [hrow]
    cases hbit : isResidueBit sqrt chip.nonresidue values[b] i with
    | true => exact fun _ => hsq.1 hbit
    | false => exact fun h1 => absurd h1 zero_ne_one
  have hnres : rows[j].isResidue = 0 →
      rows[j].squareRoot * rows[j].squareRoot
        = chip.nonresidue * (rows[j].value + rows[j].index) := by
    rw [hrow]
    cases hbit : isResidueBit sqrt chip.nonresidue values[b] i with
    | true => exact fun h0 => absurd h0 one_ne_zero
    | false => exact fun _ => hsq.2 hbit
  by_cases hi0 : i = 0
  · have hsel : rows[j].indexIsNonzero = false := by rw [hrow, hi0]; rfl
    have hcand : rows[j].value + rows[j].index ≠ 0 := by
      rcases htarget with h | h
      · exact h
      · rw [hsel] at h
        exact absurd h Bool.false_ne_true
    rcases flip_breaks_gate34 chip.nonresidue rows[j] hAE hcand hne1 hres hnres hbin
      with h3 | h4
    · exact rowOk_false_of_gate3 _ _ _ h3
    · exact rowOk_false_of_gate4 _ _ _ h4
  · have hsel : rows[j].indexIsNonzero = true := by
      rw [hrow]
      exact decide_eq_true hi0
    have hj0 : 0 < j := by omega
    have hj1 : j - 1 < rows.length := by omega
    have hj1b : b * chip.length + (i - 1) < rows.length := by omega
    have keyp := hget b (i - 1) hb (by omega) hj1b
    have hswap : rows[j - 1] = rows[b * chip.length + (i - 1)] := by
      congr 1
      omega
    have hacc : rows[j].pattern = 2 * rows[j - 1].pattern + rows[j].isResidue := by
      rw [hrow, hswap, keyp]
      show ((patAcc (isResidueBit sqrt chip.nonresidue values[b]) (i + 1) : ℕ) : F)
        = 2 * ((patAcc (isResidueBit sqrt chip.nonresidue values[b]) (i - 1 + 1) : ℕ) : F)
          + (if isResidueBit sqrt chip.nonresidue values[b] i then 1 else 0)
      have h1 : i - 1 + 1 = i := by omega
      rw [h1]
      have hstep : patAcc (isResidueBit sqrt chip.nonresidue values[b]) (i + 1)
          = 2 * patAcc (isResidueBit sqrt chip.nonresidue values[b]) i
            + (if isResidueBit sqrt chip.nonresidue values[b] i then 1 else 0) := rfl
      rw [hstep]
      push_cast [apply_ite (fun n : ℕ => (n : F))]
      ring
    have hprev : (flipAt j rows)[j - 1]? = some rows[j - 1] := by
      rw [flipAt_getElem? j (j - 1) rows, if_neg (by omega), List.getElem?_eq_getElem hj1]
    rw [if_neg (by omega : ¬ j = 0), hprev]
    exact rowOk_false_of_gate5 _ _ _ (flip_breaks_gate5 rows[j - 1] rows[j] hsel hacc hbin)

section Substrate

/-- One call into the external row-table substrate made by `assign_value`:
selector enables (`0` = `always_enabled`, `1` = `index_is_nonzero`), fixed-cell
writes (column `0` = `index`) and advice-cell writes (columns `0..3` =
`value`, `is_residue`, `pattern`, `square_root`), each at a row offset. -/
inductive SubCall (F : Type) where
  | enableSelector (sel offset : ℕ)
  | assignFixed (col offset : ℕ) (v : F)
  | assignAdvice (col offset : ℕ) (v : F)
deriving DecidableEq

/-- Outcome of running the engine against a fallible substrate: a propagated
substrate error `err`, a `panic` (the `.unwrap()` of the nonresidue branch),
or normal completion. -/
inductive RunResult (E α : Type) where
  | panic
  | err (e : E)
  | ok (a : α)
deriving DecidableEq

/-- Sequencing of one substrate call: an error aborts with exactly that
error (the `?` operator), success continues. -/
def stepE {E α : Type} (x : Except E Unit) (k : Unit → RunResult E α) : RunResult E α :=
  match x with
  | Except.error e => RunResult.err e
  | Except.ok _ => k ()

variable {F : Type} [Field F] [DecidableEq F] {E : Type}

/-- The loop of `assign_value` against the substrate, in source order:
enable `always_enabled`; enable `index_is_nonzero` when `index ≠ 0`; write
the fixed `index`; write `value`; compute the witness pair (panicking when
both square roots are missing); write `is_residue`; write the updated
`pattern`; write `square_root`; advance the offset. -/
def assignValueE (S : SubCall F → Except E Unit) (sqrt : F → Option F)
    (nonresidue value : F) : List ℕ → ℕ → ℕ → RunResult E ℕ
  | [], _, pat => RunResult.ok pat
  | i :: rest, offset, pat =>
    stepE (S (SubCall.enableSelector 0 offset)) fun _ =>
    stepE (if i ≠ 0 then S (SubCall.enableSelector 1 offset) else Except.ok ()) fun _ =>
    stepE (S (SubCall.assignFixed 0 offset (i : F))) fun _ =>
    stepE (S (SubCall.assignAdvice 0 offset value)) fun _ =>
    match rowWitness sqrt nonresidue value i with
    | none => RunResult.panic
    | some (b, root) =>
      stepE (S (SubCall.assignAdvice 1 offset (if b then 1 else 0))) fun _ =>
      stepE (S (SubCall.assignAdvice 2 offset
        ((2 * pat + (if b then 1 else 0) : ℕ) : F))) fun _ =>
      stepE (S (SubCall.assignAdvice 3 offset root)) fun _ =>
      assignValueE S sqrt nonresidue value rest (offset + 1)
        (2 * pat + (if b then 1 else 0))

/-- `assign` against the substrate: one block per value, each starting
`length` rows after the previous one. -/
def assignE (S : SubCall F → Except E Unit) (sqrt : F → Option F)
    (length : ℕ) (nonresidue : F) : List F → ℕ → RunResult E (List ℕ)
  | [], _ => RunResult.ok []
  | v :: vs, offset =>
    match assignValueE S sqrt nonresidue v (List.range length) offset 0 with
    | RunResult.panic => RunResult.panic
    | RunResult.err e => RunResult.err e
    | RunResult.ok pat =>
      match assignE S sqrt length nonresidue vs (offset + length) with
      | RunResult.panic => RunResult.panic
      | RunResult.err e => RunResult.err e
      | RunResult.ok pats => RunResult.ok (pat :: pats)

theorem stepE_err {E α : Type} (x : Except E Unit) (k : Unit → RunResult E α) (e : E)
    (h : stepE x k = RunResult.err e) : x = Except.error e ∨ k () = RunResult.err e := by
  cases x with
  | error e1 =>
    left
    rw [show stepE (Except.error e1) k = RunResult.err e1 from rfl] at h
    rw [RunResult.err.inj h]
  | ok u =>
    cases u
    right
    exact h

theorem assignValueE_err (S : SubCall F → Except E Unit) (sqrt : F → Option F)
    (nonresidue value : F) : ∀ (l : List ℕ) (offset pat : ℕ) (e : E),
    assignValueE S sqrt nonresidue value l offset pat = RunResult.err e →
    ∃ c : SubCall F, S c = Except.error e := by
  intro l
  induction l with
  | nil => intro offset pat e h; exact absurd h (by simp [assignValueE])
  | cons i rest ih =>
    intro offset pat e h
    rw [assignValueE] at h
    rcases stepE_err _ _ _ h with h1 | h
    · exact ⟨_, h1⟩
    rcases stepE_err _ _ _ h with h2 | h
    · by_cases hi : i ≠ 0
      · rw [if_pos hi] at h2
        exact ⟨_, h2⟩
      · rw [if_neg hi] at h2
        exact absurd h2 (by simp)
    rcases stepE_err _ _ _ h with h3 | h
    · exact ⟨_, h3⟩
    rcases stepE_err _ _ _ h with h4 | h
    · exact ⟨_, h4⟩
    cases hrw : rowWitness sqrt nonresidue value i with
    | none =>
      rw [hrw] at h
      exact absurd h (by simp)
    | some br =>
      obtain ⟨b, root⟩ := br
      rw [hrw] at h
      rcases stepE_err _ _ _ h with h5 | h
      · exact ⟨_, h5⟩
      rcases stepE_err _ _ _ h with h6 | h
      · exact ⟨_, h6⟩
      rcases stepE_err _ _ _ h with h7 | h
      · exact ⟨_, h7⟩
      exact ih _ _ _ h

theorem assignValueE_allok (S : SubCall F → Except E Unit) (sqrt : F → Option F)
    (nonresidue value : F) (hS : ∀ c, S c = Except.ok ()) :
    ∀ (l : List ℕ) (offset pat : ℕ),
    assignValueE S sqrt nonresidue value l offset pat
      = match assignValueAux sqrt nonresidue value l pat with
        | none => RunResult.panic
        | some (_, patFinal) => RunResult.ok patFinal := by
  intro l
  induction l with
  | nil => intro offset pat; rfl
  | cons i rest ih =>
    intro offset pat
    rw [assignValueE, hS, hS, hS, hS, ite_self]
    show (match rowWitness sqrt nonresidue value i with
      | none => RunResult.panic
      | some (b, root) =>
        stepE (S (SubCall.assignAdvice 1 offset (if b then 1 else 0))) fun _ =>
        stepE (S (SubCall.assignAdvice 2 offset
          ((2 * pat + (if b then 1 else 0) : ℕ) : F))) fun _ =>
        stepE (S (SubCall.assignAdvice 3 offset root)) fun _ =>
        assignValueE S sqrt nonresidue value rest (offset + 1)
          (2 * pat + (if b then 1 else 0))) = _
    cases hrw : rowWitness sqrt nonresidue value i with
    | none =>
      rw [assignValueAux, hrw]
    | some br =>
      obtain ⟨b, root⟩ := br
      show (stepE (S (SubCall.assignAdvice 1 offset (if b then 1 else 0))) fun _ =>
        stepE (S (SubCall.assignAdvice 2 offset
          ((2 * pat + (if b then 1 else 0) : ℕ) : F))) fun _ =>
        stepE (S (SubCall.assignAdvice 3 offset root)) fun _ =>
        assignValueE S sqrt nonresidue value rest (offset + 1)
          (2 * pat + (if b then 1 else 0))) = _
      rw [hS, hS, hS]
      show assignValueE S sqrt nonresidue value rest (offset + 1)
          (2 * pat + (if b then 1 else 0)) = _
      rw [ih (offset + 1) (2 * pat + (if b then 1 else 0)), assignValueAux, hrw]
      show (match assignValueAux sqrt nonresidue value rest
            (2 * pat + (if b then 1 else 0)) with
          | none => RunResult.panic
          | some (_, patFinal) => RunResult.ok patFinal)
        = (match (match assignValueAux sqrt nonresidue value rest
              (2 * pat + (if b then 1 else 0)) with
            | none => none
            | some (rows, patFinal) =>
              some (mkRow b root value i (2 * pat + (if b then 1 else 0)) :: rows,
                patFinal)) with
          | none => RunResult.panic
          | some (_, patFinal) => RunResult.ok patFinal)
      cases hres : assignValueAux sqrt nonresidue value rest
          (2 * pat + (if b then 1 else 0)) with
      | none => rfl
      | some p => obtain ⟨rws, pf⟩ := p; rfl

theorem assignE_err (S : SubCall F → Except E Unit) (sqrt : F → Option F)
    (length : ℕ) (nonresidue : F) : ∀ (values : List F) (offset : ℕ) (e : E),
    assignE S sqrt length nonresidue values offset = RunResult.err e →
    ∃ c : SubCall F, S c = Except.error e := by
  intro values
  induction values with
  | nil => intro offset e h; exact absurd h (by simp [assignE])
  | cons v vs ih =>
    intro offset e h
    rw [assignE] at h
    cases hv : assignValueE S sqrt nonresidue v (List.range length) offset 0 with
    | panic => rw [hv] at h; exact absurd h (by simp)
    | err e1 =>
      rw [hv] at h
      have he1 : e1 = e := RunResult.err.inj h
      exact assignValueE_err S sqrt nonresidue v (List.range length) offset 0 e
        (he1 ▸ hv)
    | ok pat =>
      rw [hv] at h
      cases hvs : assignE S sqrt length nonresidue vs (offset + length) with
      | panic => rw [hvs] at h; exact absurd h (by simp)
      | err e1 =>
        rw [hvs] at h
        have he1 : e1 = e := RunResult.err.inj h
        exact ih (offset + length) e (he1 ▸ hvs)
      | ok pats => rw [hvs] at h; exact absurd h (by simp)

theorem assignE_allok (S : SubCall F → Except E Unit) (sqrt : F → Option F)
    (chip : ResiduePatternChip F) (hS : ∀ c, S c = Except.ok ()) :
    ∀ (values : List F) (offset : ℕ),
    assignE S sqrt chip.length chip.nonresidue values offset
      = match chip.assign sqrt values with
        | none => RunResult.panic
        | some (_, pats) => RunResult.ok pats := by
  intro values
  induction values with
  | nil => intro offset; rfl
  | cons v vs ih =>
    intro offset
    rw [assignE,
      assignValueE_allok S sqrt chip.nonresidue v hS (List.range chip.length) offset 0]
    rw [ResiduePatternChip.assign]
    show (match (match chip.assign_value sqrt v with
        | none => RunResult.panic
        | some (_, patFinal) => RunResult.ok patFinal) with
      | RunResult.panic => RunResult.panic
      | RunResult.err e => RunResult.err e
      | RunResult.ok pat =>
        match assignE S sqrt chip.length chip.nonresidue vs (offset + chip.length) with
        | RunResult.panic => RunResult.panic
        | RunResult.err e => RunResult.err e
        | RunResult.ok pats => RunResult.ok (pat :: pats)) = _
    cases hv : chip.assign_value sqrt v with
    | none => rfl
    | some rp =>
      obtain ⟨rws, pat⟩ := rp
      show (match assignE S sqrt chip.length chip.nonresidue vs (offset + chip.length) with
        | RunResult.panic => RunResult.panic
        | RunResult.err e => RunResult.err e
        | RunResult.ok pats => RunResult.ok (pat :: pats)) = _
      rw [ih (offset + chip.length)]
      cases hvs : chip.assign sqrt vs with
      | none => rfl
      | some rrp =>
        obtain ⟨rest, pats⟩ := rrp
        rfl

end Substrate

theorem isSquare_mul_of_not_isSquare {F : Type} [Field F] [Fintype F] [DecidableEq F]
    {a b : F} (ha : ¬ IsSquare a) (hb : ¬ IsSquare b) : IsSquare (a * b) := by
  by_cases hchar : ringChar F = 2
  · exact absurd (FiniteField.isSquare_of_char_two hchar a) ha
  · have ha0 : a ≠ 0 := fun h => ha (h ▸ ⟨0, by ring⟩)
    have hb0 : b ≠ 0 := fun h => hb (h ▸ ⟨0, by ring⟩)
    have hqa : quadraticChar F a = -1 := quadraticChar_neg_one_iff_not_isSquare.mpr ha
    have hqb : quadraticChar F b = -1 := quadraticChar_neg_one_iff_not_isSquare.mpr hb
    have hmul : quadraticChar F (a * b) = 1 := by
      rw [map_mul, hqa, hqb]
      ring
    exact (quadraticChar_one_iff_isSquare (mul_ne_zero ha0 hb0)).mp hmul

/-- C7: the engine returns an error exactly as the substrate dictates: any
returned error is the unchanged error of one of its selector-enable,
fixed-write or advice-write calls, and if every substrate call succeeds the
run never returns an error — it completes with the patterns of the pure
model (or hits the nonresidue-branch panic, which is an abort, not an
error). -/
theorem assign_error_propagation {F : Type} [Field F] [DecidableEq F] {E : Type}
    (S : SubCall F → Except E Unit) (sqrt : F → Option F)
    (chip : ResiduePatternChip F) (values : List F) (offset : ℕ) :
    (∀ e : E, assignE S sqrt chip.length chip.nonresidue values offset = RunResult.err e →
      ∃ c : SubCall F, S c = Except.error e) ∧
    ((∀ c, S c = Except.ok ()) →
      assignE S sqrt chip.length chip.nonresidue values offset
        = match chip.assign sqrt values with
          | none => RunResult.panic
          | some (_, pats) => RunResult.ok pats) :=
  ⟨fun e h => assignE_err S sqrt chip.length chip.nonresidue values offset e h,
   fun hS => assignE_allok S sqrt chip hS values offset⟩

/-- C8: when the configured nonresidue truly has no square root, a nonresidue
times a nonsquare candidate is a square, so the nonresidue branch of
`assign_value` always finds its root and the per-row witness computation
never panics; and when that invariant is breached (both square-root attempts
fail on the first row), the run aborts with a panic, not with a recoverable
substrate error. -/
theorem nonresidue_branch_total {F : Type} [Field F] [Fintype F] [DecidableEq F]
    (sqrt : F → Option F)
    (hsome : ∀ x r, sqrt x = some r → r * r = x)
    (hnone : ∀ x, sqrt x = none → ¬ IsSquare x)
    (chip : ResiduePatternChip F) (hnr : ¬ IsSquare chip.nonresidue) :
    (∀ c : F, ¬ IsSquare c → IsSquare (chip.nonresidue * c)) ∧
    (∀ (value : F) (i : ℕ), rowWitness sqrt chip.nonresidue value i ≠ none) ∧
    (∀ value : F, chip.assign_value sqrt value ≠ none) ∧
    (∀ (E : Type) (S : SubCall F → Except E Unit) (sqrt2 : F → Option F)
      (nonres2 value : F) (offset : ℕ), 0 < chip.length →
      rowWitness sqrt2 nonres2 value 0 = none →
      (∀ c, S c = Except.ok ()) →
      assignE S sqrt2 chip.length nonres2 [value] offset = RunResult.panic) := by
  have hprod : ∀ c : F, ¬ IsSquare c → IsSquare (chip.nonresidue * c) :=
    fun c hc => isSquare_mul_of_not_isSquare hnr hc
  have hwit : ∀ (value : F) (i : ℕ), rowWitness sqrt chip.nonresidue value i ≠ none := by
    intro value i
    rw [rowWitness]
    cases hs : sqrt (value + (i : F)) with
    | some root => exact Option.some_ne_none _
    | none =>
      cases hs2 : sqrt (chip.nonresidue * (value + (i : F))) with
      | some root => exact Option.some_ne_none _
      | none =>
        exact absurd (hprod _ (hnone _ hs)) (hnone _ hs2)
  refine ⟨hprod, hwit, ?_, ?_⟩
  · intro value
    exact (assign_value_isSome_iff chip sqrt value).mpr fun i _ => hwit value i
  · intro E S sqrt2 nonres2 value offset hL hbreach hS
    have hin : assignValueE S sqrt2 nonres2 value (List.range chip.length) offset 0
        = RunResult.panic := by
      obtain ⟨n, hn⟩ : ∃ n, chip.length = n + 1 := ⟨chip.length - 1, by omega⟩
      rw [hn, List.range_succ_eq_map, assignValueE, hS, hS, hS, hS, ite_self]
      show (match rowWitness sqrt2 nonres2 value 0 with
        | none => RunResult.panic
        | some (b, root) =>
          stepE (S (SubCall.assignAdvice 1 offset (if b then 1 else 0))) fun _ =>
          stepE (S (SubCall.assignAdvice 2 offset
            ((2 * 0 + (if b then 1 else 0) : ℕ) : F))) fun _ =>
          stepE (S (SubCall.assignAdvice 3 offset root)) fun _ =>
          assignValueE S sqrt2 nonres2 value ((List.range n).map Nat.succ) (offset + 1)
            (2 * 0 + (if b then 1 else 0))) = RunResult.panic
      rw [hbreach]
    rw [assignE, hin]


section WitnessInfra

/-- Brute-force square root over `ZMod n`: the first `r` in `0, 1, ...` with
`r * r = x`. Used to instantiate the abstract `sqrt` oracle on small fields
for concrete runs. -/
def zmodSqrt (n : ℕ) (x : ZMod n) : Option (ZMod n) :=
  ((List.range n).map (fun r : ℕ => (r : ZMod n))).find? (fun r => r * r == x)

theorem zmodSqrt_some (n : ℕ) (x r : ZMod n) (h : zmodSqrt n x = some r) : r * r = x := by
  have h2 : ((List.range n).map (fun k : ℕ => (k : ZMod n))).find?
      (fun r => r * r == x) = some r := h
  have h3 := List.find?_some h2
  simp only [beq_iff_eq] at h3
  exact h3

theorem zmodSqrt_none (n : ℕ) [NeZero n] (x : ZMod n) (h : zmodSqrt n x = none) :
    ¬ IsSquare x := by
  rintro ⟨r, hr⟩
  have hmem : r ∈ (List.range n).map (fun k : ℕ => (k : ZMod n)) :=
    List.mem_map.mpr ⟨r.val, List.mem_range.mpr (ZMod.val_lt r), ZMod.natCast_rightInverse r⟩
  have hnp := List.find?_eq_none.mp h r hmem
  apply hnp
  rw [beq_iff_eq]
  exact hr.symm

/-- An abstract square-root oracle on `Fr` satisfying the external field
library's contract, used only to instantiate oracle hypotheses at concrete
inputs. -/
noncomputable def sqrtFr (x : Fr) : Option Fr :=
  if h : IsSquare x then some h.choose else none

theorem sqrtFr_some (x r : Fr) (h : sqrtFr x = some r) : r * r = x := by
  rw [sqrtFr] at h
  by_cases hx : IsSquare x
  · rw [dif_pos hx] at h
    rw [← Option.some.inj h]
    exact hx.choose_spec.symm
  · rw [dif_neg hx] at h
    exact absurd h (by simp)

theorem sqrtFr_none (x : Fr) (h : sqrtFr x = none) : ¬ IsSquare x := by
  intro hx
  rw [sqrtFr, dif_pos hx] at h
  exact absurd h (by simp)

instance : Fact (Nat.Prime 11) := ⟨by norm_num⟩

/-- The small-field oracle and chip used for concrete witness runs. -/
def sqrt11 : ZMod 11 → Option (ZMod 11) := zmodSqrt 11

def chip11 : ResiduePatternChip (ZMod 11) := ⟨3, 2⟩

def run11 : Option (List (Row (ZMod 11)) × List ℕ) := chip11.assign sqrt11 [0, 5]

def rows11 : List (Row (ZMod 11)) := (run11.getD ([], [])).1

def pats11 : List ℕ := (run11.getD ([], [])).2

theorem run11_eq : chip11.assign sqrt11 [0, 5] = some (rows11, pats11) := by decide

def run0 : Option (List (Row (ZMod 11)) × List ℕ) := chip11.assign sqrt11 [0]

def rows0 : List (Row (ZMod 11)) := (run0.getD ([], [])).1

def pats0 : List ℕ := (run0.getD ([], [])).2

theorem run0_eq : chip11.assign sqrt11 [0] = some (rows0, pats0) := by decide

def run3 : Option (List (Row (ZMod 11)) × List ℕ) := chip11.assign sqrt11 [3]

def rows3 : List (Row (ZMod 11)) := (run3.getD ([], [])).1

def pats3 : List ℕ := (run3.getD ([], [])).2

theorem run3_eq : chip11.assign sqrt11 [3] = some (rows3, pats3) := by decide

/-- All-accepting substrate for witness runs. -/
def SOk : SubCall (ZMod 11) → Except Unit Unit := fun _ => Except.ok ()

end WitnessInfra

/-- C3 counterexample: over `ZMod 11` with the genuine nonresidue `2`, the
valid run on the single value `0` (block-first row has `value + index = 0`,
`square_root = 0`) satisfies every gate, and so does the table obtained by
flipping the first row's `is_residue` — the claim that every single-bit flip
is rejected is false. -/
theorem tamper_flip_undetected_counterexample :
    ¬ IsSquare (2 : ZMod 11) ∧
    chip11.assign sqrt11 [0] = some (rows0, pats0) ∧
    tableOk (2 : ZMod 11) none rows0 = true ∧
    tableOk (2 : ZMod 11) none (flipAt 0 rows0) = true :=
  ⟨by decide, by decide, by decide, by decide⟩

theorem tamper_flip_detected_witness :
    tableOk chip11.nonresidue none (flipAt 0 rows3) = false :=
  tamper_flip_detected sqrt11 (fun x r h => zmodSqrt_some 11 x r h) chip11 (by decide)
    [3] rows3 pats3 run3_eq 0 (by decide) (by decide)

theorem assign_oracle_equivalence_witness :
    ([] : List ℕ).length = ([] : List Fr).length ∧
    ([] : List ℕ) = ([] : List Fr).map residue_pattern :=
  assign_oracle_equivalence sqrtFr sqrtFr_some sqrtFr_none 5 [] [] [] rfl

theorem assign_square_relation_binary_witness :
    ((rows11.get ⟨5, by decide⟩).isResidue = 1 →
      (rows11.get ⟨5, by decide⟩).squareRoot * (rows11.get ⟨5, by decide⟩).squareRoot
        = (rows11.get ⟨5, by decide⟩).value + (rows11.get ⟨5, by decide⟩).index) ∧
    ((rows11.get ⟨5, by decide⟩).isResidue = 0 →
      (rows11.get ⟨5, by decide⟩).squareRoot * (rows11.get ⟨5, by decide⟩).squareRoot
        = chip11.nonresidue
          * ((rows11.get ⟨5, by decide⟩).value + (rows11.get ⟨5, by decide⟩).index)) ∧
    ((rows11.get ⟨5, by decide⟩).isResidue = 0 ∨ (rows11.get ⟨5, by decide⟩).isResidue = 1) :=
  assign_square_relation_binary sqrt11 (fun x r h => zmodSqrt_some 11 x r h) chip11
    (by decide) [0, 5] rows11 pats11 run11_eq 5 (by decide)

theorem assign_pattern_accumulation_witness :
    ((rows11.get ⟨1, by decide⟩).pattern
      = 2 * (rows11.get ⟨0, by decide⟩).pattern + (rows11.get ⟨1, by decide⟩).isResidue) ∧
    ((rows11.get ⟨3, by decide⟩).pattern = (rows11.get ⟨3, by decide⟩).isResidue) :=
  ⟨(assign_pattern_accumulation sqrt11 chip11 [0, 5] rows11 pats11 run11_eq
      0 1 (by decide) (by decide) (by decide)).1 (by decide) (by decide),
   (assign_pattern_accumulation sqrt11 chip11 [0, 5] rows11 pats11 run11_eq
      1 0 (by decide) (by decide) (by decide)).2 rfl⟩

theorem assign_block_structure_witness :
    rows11.length = 6 ∧
    (rows11.get ⟨4, by decide⟩).index = ((1 : ℕ) : ZMod 11) ∧
    (rows11.get ⟨4, by decide⟩).value = (5 : ZMod 11) ∧
    (rows11.get ⟨4, by decide⟩).index
      * ((rows11.get ⟨4, by decide⟩).value - (rows11.get ⟨3, by decide⟩).value) = 0 ∧
    ((rows11.get ⟨4, by decide⟩).index ≠ 0 →
      (rows11.get ⟨4, by decide⟩).value = (rows11.get ⟨3, by decide⟩).value) ∧
    (rows11.get ⟨0, by decide⟩).index = 0 := by
  obtain ⟨h1, h2, h3, h4⟩ :=
    assign_block_structure sqrt11 chip11 [0, 5] rows11 pats11 run11_eq
  have hbi := h2 1 1 (by decide) (by decide) (by decide)
  have hsteps := h3 4 (by decide) (by decide) (by decide)
  exact ⟨h1, hbi.1, hbi.2, hsteps.1, hsteps.2, h4 (by decide)⟩

theorem assign_error_propagation_witness :
    assignE SOk sqrt11 chip11.length chip11.nonresidue [(0 : ZMod 11), 5] 0
      = (match chip11.assign sqrt11 [(0 : ZMod 11), 5] with
        | none => RunResult.panic
        | some (_, pats) => RunResult.ok pats) :=
  (assign_error_propagation SOk sqrt11 chip11 [(0 : ZMod 11), 5] 0).2 (fun _ => rfl)

def sqrtNone : ZMod 11 → Option (ZMod 11) := fun _ => none

theorem nonresidue_branch_total_witness :
    IsSquare ((2 : ZMod 11) * 7) ∧
    rowWitness sqrt11 (2 : ZMod 11) 0 2 ≠ none ∧
    chip11.assign_value sqrt11 0 ≠ none ∧
    assignE SOk sqrtNone chip11.length (7 : ZMod 11) [(7 : ZMod 11)] 0
      = RunResult.panic := by
  obtain ⟨h1, h2, h3, h4⟩ := nonresidue_branch_total sqrt11
    (fun x r h => zmodSqrt_some 11 x r h) (fun x h => zmodSqrt_none 11 x h)
    chip11 (by decide)
  exact ⟨h1 7 (by decide), h2 0 2, h3 0,
    h4 Unit SOk sqrtNone 7 7 0 (by decide) rfl (fun _ => rfl)⟩

def av0 : Option (List (Row (ZMod 11)) × ℕ) := chip11.assign_value sqrt11 0

def rowsAV : List (Row (ZMod 11)) := (av0.getD ([], 0)).1

def patAV : ℕ := (av0.getD ([], 0)).2

theorem av0_eq : chip11.assign_value sqrt11 0 = some (rowsAV, patAV) := by decide

theorem assign_value_pattern_bound_witness :
    patAcc (isResidueBit sqrt11 chip11.nonresidue 0) (0 + 1) < 2 ^ (0 + 1) ∧
    2 * patAcc (isResidueBit sqrt11 chip11.nonresidue 0) 2
      + (if isResidueBit sqrt11 chip11.nonresidue 0 2 then 1 else 0) < 2 ^ 64 ∧
    patAV < 2 ^ 64 := by
  obtain ⟨h1, h2, h3⟩ := assign_value_pattern_bound sqrt11 chip11 0 (by decide)
  exact ⟨h1 0, h2 2 (by decide), h3 rowsAV patAV av0_eq⟩
